import Mathlib

/-!
Verification of the rule-engine configuration core (`rule_engine/config.py`).

The embedding models Python/YAML values as the inductive type `Val`
(numbers become exact rationals: the code never computes with the
weights, it only stores and returns them, so `Rat` is a faithful model
of the float literals), Python dicts as insertion-ordered association
lists with unique keys, and a raised Python exception as `Except.error`.
`pyLower` models `str.lower()`; it is proved equal to `String.toLower`
below.  `_merge_configs` is given fuel so that it is structurally
recursive and therefore computes inside the kernel; `mergeFuel_eq` shows
the fuel is irrelevant once it exceeds the size of the override.
A separate explicit-heap model (`HVal`/`Heap`) captures Python reference
semantics where aliasing matters (`DEFAULT_CONFIG.copy()` is a shallow
copy).
-/

/-- A Python/YAML value as stored in the configuration dictionaries. -/
inductive Val where
  | vStr (s : String)
  | vBool (b : Bool)
  | vNum (q : Rat)
  | vNull
  | vList (xs : List Val)
  | vDict (d : List (String × Val))

/-- Entries of a Python dict: insertion-ordered key/value pairs. -/
abbrev Entries := List (String × Val)

mutual

/-- Size of a value (number of nested dict nodes and entries), used as
recursion fuel. -/
def valSize : Val → Nat
  | Val.vDict d => 1 + entriesSize d
  | _ => 1

/-- Size of a dict's entry list. -/
def entriesSize : Entries → Nat
  | [] => 0
  | (_, v) :: r => 1 + valSize v + entriesSize r

end

/-- Python `str.lower()`; `Char.toLower` applied to every character. -/
def pyLower (s : String) : String :=
  String.mk (s.data.map Char.toLower)

/-- Python dict lookup `d[k]` (first matching key; Python dicts have unique keys). -/
def getKey : Entries → String → Option Val
  | [], _ => none
  | (k, v) :: r, key => if k = key then some v else getKey r key

/-- Python dict assignment `d[k] = v`: updates the existing key in place
(preserving its position) or appends a new key at the end. -/
def setKey : Entries → String → Val → Entries
  | [], key, v => [(key, v)]
  | (k, w) :: r, key, v =>
    if k = key then (key, v) :: r else (k, w) :: setKey r key v

/-- Python truthiness of a value (used by `if user_config and ...`). -/
def pyTruthy : Val → Bool
  | Val.vStr s => !s.isEmpty
  | Val.vBool b => b
  | Val.vNum q => decide (q ≠ 0)
  | Val.vNull => false
  | Val.vList xs => !xs.isEmpty
  | Val.vDict d => !d.isEmpty

/-- Python substring test `needle in hay` for strings. -/
def pyStrContains (hay needle : String) : Bool :=
  if needle = "" then true else decide (2 ≤ (hay.splitOn needle).length)

/-- The Python exceptions the queries can raise. -/
inductive PyErr where
  | keyError
  | typeError
  | attributeError
deriving DecidableEq

/-- Python subscript `container[k]` with a string key: dict lookup
(raising `KeyError` on a miss); on a string, list, or scalar a string
subscript raises `TypeError`. -/
def pySubscr : Val → String → Except PyErr Val
  | Val.vDict d, k =>
    match getKey d k with
    | some v => Except.ok v
    | none => Except.error PyErr.keyError
  | _, _ => Except.error PyErr.typeError

/-- Python membership `k in container` for a string `k`: key test on a
dict, substring test on a string, element test on a list (a string
compares equal only to an equal string); `TypeError` on non-containers. -/
def pyContains (container : Val) (k : String) : Except PyErr Bool :=
  match container with
  | Val.vDict d => Except.ok (getKey d k).isSome
  | Val.vStr s => Except.ok (pyStrContains s k)
  | Val.vList xs =>
      Except.ok (xs.any (fun x =>
        match x with
        | Val.vStr s => s == k
        | _ => false))
  | _ => Except.error PyErr.typeError

/-- The `"rules"` table of `DEFAULT_CONFIG`. -/
def defaultRules : Entries :=
  [("python", Val.vDict
      [("python_naming_convention", Val.vDict
          [("enabled", Val.vBool true), ("severity", Val.vStr "medium")]),
       ("python_unused_import", Val.vDict
          [("enabled", Val.vBool true), ("severity", Val.vStr "low")]),
       ("python_except_pass", Val.vDict
          [("enabled", Val.vBool true), ("severity", Val.vStr "high")]),
       ("python_sql_injection", Val.vDict
          [("enabled", Val.vBool true), ("severity", Val.vStr "critical")]),
       ("python_nested_loop", Val.vDict
          [("enabled", Val.vBool true), ("severity", Val.vStr "medium")])]),
   ("javascript", Val.vDict
      [("javascript_var_usage", Val.vDict
          [("enabled", Val.vBool true), ("severity", Val.vStr "medium")]),
       ("javascript_equality", Val.vDict
          [("enabled", Val.vBool true), ("severity", Val.vStr "high")]),
       ("javascript_eval", Val.vDict
          [("enabled", Val.vBool true), ("severity", Val.vStr "critical")]),
       ("javascript_array_foreach", Val.vDict
          [("enabled", Val.vBool true), ("severity", Val.vStr "low")])])]

/-- The `"categories"` table of `DEFAULT_CONFIG`. -/
def defaultCategories : Entries :=
  [("quality", Val.vDict [("enabled", Val.vBool true)]),
   ("bug", Val.vDict [("enabled", Val.vBool true)]),
   ("security", Val.vDict [("enabled", Val.vBool true)]),
   ("performance", Val.vDict [("enabled", Val.vBool true)]),
   ("style", Val.vDict [("enabled", Val.vBool true)]),
   ("maintainability", Val.vDict [("enabled", Val.vBool true)])]

/-- The `"rating_weights"` table of `DEFAULT_CONFIG` (`0.5 = 1/2`, `0.2 = 1/5`). -/
def defaultRatingWeights : Entries :=
  [("critical", Val.vNum 2),
   ("high", Val.vNum 1),
   ("medium", Val.vNum (1/2)),
   ("low", Val.vNum (1/5))]

/-- The module-level `DEFAULT_CONFIG` literal. -/
def defaultConfig : Entries :=
  [("rules", Val.vDict defaultRules),
   ("categories", Val.vDict defaultCategories),
   ("severity_levels", Val.vList
      [Val.vStr "critical", Val.vStr "high", Val.vStr "medium", Val.vStr "low"]),
   ("rating_weights", Val.vDict defaultRatingWeights)]

/-- `RuleConfig._merge_configs`, fuel-indexed so that it is structurally
recursive (and hence computes in the kernel).  With enough fuel it
performs the source's recursion: for each key of the user dict, if both
sides hold dicts it recurses, otherwise the user value replaces the base
value. -/
def mergeFuel : Nat → Entries → Entries → Entries
  | 0, base, _ => base
  | _ + 1, base, [] => base
  | n + 1, base, (k, v) :: rest =>
    match getKey base k, v with
    | some (Val.vDict bd), Val.vDict ud =>
        mergeFuel n (setKey base k (Val.vDict (mergeFuel n bd ud))) rest
    | _, _ => mergeFuel n (setKey base k v) rest

/-- `RuleConfig._merge_configs(base, user)` as a function returning the
merged dict (the Python method mutates `base` in place; the resulting
value of `base` is exactly this result).  `entriesSize user` bounds the
recursion depth, so the fuel never runs out (`mergeFuel_eq`). -/
def mergeConfigs (base user : Entries) : Entries :=
  mergeFuel (entriesSize user) base user

/-- The value stored at key `k` by one step of the merge: the recursive
merge when both sides hold dicts, the user value otherwise. -/
def stepVal (base : Entries) (k : String) (v : Val) : Val :=
  match getKey base k, v with
  | some (Val.vDict bd), Val.vDict ud => Val.vDict (mergeConfigs bd ud)
  | _, _ => v

/-- Fuel-indexed check that every dict nested in the value (along dict
values) has duplicate-free keys. -/
def nodupValF : Nat → Val → Bool
  | 0, _ => false
  | n + 1, Val.vDict d =>
      decide ((d.map Prod.fst).Nodup) && d.all (fun p => nodupValF n p.2)
  | _ + 1, _ => true

/-- `nodupVal v` holds when every dict nested in `v` has duplicate-free
keys — true of every value parsed from a YAML/Python mapping document
(Python dicts cannot hold a key twice). -/
def nodupVal (v : Val) : Bool := nodupValF (valSize v) v

/-- Python string comparison `a < b` on character lists: lexicographic
by code point (the order `sorted()` and PyYAML's key sorting use). -/
def charListLt : List Char → List Char → Bool
  | [], [] => false
  | [], _ :: _ => true
  | _ :: _, [] => false
  | c1 :: r1, c2 :: r2 =>
    if c1.toNat < c2.toNat then true
    else if c2.toNat < c1.toNat then false
    else charListLt r1 r2

/-- Python string comparison `a < b`. -/
def strLt (a b : String) : Bool := charListLt a.data b.data

/-- Insert an entry into a key-sorted entry list, keeping it sorted. -/
def insertE (p : String × Val) : Entries → Entries
  | [] => [p]
  | q :: t => if strLt p.1 q.1 then p :: q :: t else q :: insertE p t

mutual

/-- The value as `yaml.dump` (with its default `sort_keys=True`) writes
it and `yaml.safe_load` re-reads it: every mapping's keys are emitted in
sorted order, recursively (also inside sequences); sequences keep their
element order; scalars round-trip unchanged. -/
def sortV : Val → Val
  | Val.vDict d => Val.vDict (sortE d)
  | Val.vList xs => Val.vList (sortL xs)
  | v => v

/-- Sort a mapping's entries by key (code-point order), recursively
sorting the values. -/
def sortE : Entries → Entries
  | [] => []
  | (k, v) :: r => insertE (k, sortV v) (sortE r)

/-- Recursively sort the mappings inside a sequence's elements. -/
def sortL : List Val → List Val
  | [] => []
  | v :: r => sortV v :: sortL r

end

/-- Keys in strictly increasing (code-point) order. -/
def sortedKeysB : List String → Bool
  | [] => true
  | [_] => true
  | k1 :: k2 :: r => strLt k1 k2 && sortedKeysB (k2 :: r)

/-- `PreS base cfg`: `cfg` starts with exactly the keys of `base`, in
order; wherever both sides hold dicts the sub-dicts (required
duplicate-free) are again in the relation; wherever the merge would
store the `cfg` value verbatim (not-both-dicts positions) that value is
invariant under `sortV`; and the extra entries of `cfg` beyond `base`
follow at the end with strictly sorted keys and `sortV`-invariant
values.  This is the class of configurations the key-sorting save/load
round-trip reproduces exactly: it never lost a default key, and its
verbatim-stored content is already in the order `yaml.dump` emits. -/
inductive PreS : Entries → Entries → Prop where
  | nil (cfg : Entries) :
      sortedKeysB (cfg.map Prod.fst) = true →
      (∀ p ∈ cfg, sortV (p : String × Val).2 = p.2) →
      PreS [] cfg
  | consDict (k : String) (bd cd br cr : Entries)
      (hbd : (bd.map Prod.fst).Nodup) (hcd : (cd.map Prod.fst).Nodup)
      (hsub : PreS bd cd) (hrest : PreS br cr) :
      PreS ((k, Val.vDict bd) :: br) ((k, Val.vDict cd) :: cr)
  | consRepl (k : String) (v w : Val) (br cr : Entries)
      (hnd : ∀ bd, v = Val.vDict bd → ∀ cd, w ≠ Val.vDict cd)
      (hfix : sortV w = w)
      (hrest : PreS br cr) :
      PreS ((k, v) :: br) ((k, w) :: cr)

/-- The outcome of `yaml.safe_load` on the override file: a parsed value,
or a parse/IO failure (any exception inside the `try` block). -/
inductive ParseResult where
  | ok (v : Val)
  | err (msg : String)

/-- `RuleConfig.load_config`: on a parse failure the exception is caught
and a diagnostic is printed (second component) with the configuration
unchanged; on success the document is merged only when it is truthy and
a dict. -/
def load_config (config : Entries) (p : ParseResult) : Entries × List String :=
  match p with
  | ParseResult.err msg => (config, ["Error loading config: " ++ msg])
  | ParseResult.ok v =>
    if pyTruthy v then
      match v with
      | Val.vDict d => (mergeConfigs config d, [])
      | _ => (config, [])
    else (config, [])

/-- `RuleConfig.save_config`: the override document that
`yaml.dump(self.config, f, default_flow_style=False)` writes and a later
`yaml.safe_load` re-reads.  PyYAML's default `sort_keys=True` emits
every mapping with its keys in sorted (code-point) order, recursively,
so the document is the configuration with all mappings key-sorted
(`sortE`); scalar and sequence contents round-trip unchanged. -/
def save_config (config : Entries) : Val :=
  Val.vDict (sortE config)

/-- `RuleConfig.is_rule_enabled`, with every container operation given
Python semantics (`Except.error` models a raised exception). -/
def is_rule_enabled (config : Entries) (rule_name language : String) :
    Except PyErr Val :=
  match pySubscr (Val.vDict config) "rules" with
  | Except.error e => Except.error e
  | Except.ok rules =>
    match pyContains rules (pyLower language) with
    | Except.error e => Except.error e
    | Except.ok false => Except.ok (Val.vBool true)
    | Except.ok true =>
      match pySubscr rules (pyLower language) with
      | Except.error e => Except.error e
      | Except.ok bucket =>
        match pyContains bucket rule_name with
        | Except.error e => Except.error e
        | Except.ok false => Except.ok (Val.vBool true)
        | Except.ok true =>
          match pySubscr bucket rule_name with
          | Except.error e => Except.error e
          | Except.ok entry => pySubscr entry "enabled"

/-- `RuleConfig.get_rule_severity`. -/
def get_rule_severity (config : Entries) (rule_name language default_severity : String) :
    Except PyErr Val :=
  match pySubscr (Val.vDict config) "rules" with
  | Except.error e => Except.error e
  | Except.ok rules =>
    match pyContains rules (pyLower language) with
    | Except.error e => Except.error e
    | Except.ok false => Except.ok (Val.vStr default_severity)
    | Except.ok true =>
      match pySubscr rules (pyLower language) with
      | Except.error e => Except.error e
      | Except.ok bucket =>
        match pyContains bucket rule_name with
        | Except.error e => Except.error e
        | Except.ok false => Except.ok (Val.vStr default_severity)
        | Except.ok true =>
          match pySubscr bucket rule_name with
          | Except.error e => Except.error e
          | Except.ok entry => pySubscr entry "severity"

/-- `RuleConfig.is_category_enabled`. -/
def is_category_enabled (config : Entries) (category : String) :
    Except PyErr Val :=
  match pySubscr (Val.vDict config) "categories" with
  | Except.error e => Except.error e
  | Except.ok cats =>
    match pyContains cats category with
    | Except.error e => Except.error e
    | Except.ok false => Except.ok (Val.vBool true)
    | Except.ok true =>
      match pySubscr cats category with
      | Except.error e => Except.error e
      | Except.ok entry => pySubscr entry "enabled"

/-- `RuleConfig.get_rating_weight`: `self.config["rating_weights"].get(severity.lower(), 0.2)`.
Calling `.get` on a non-dict raises `AttributeError`. -/
def get_rating_weight (config : Entries) (severity : String) :
    Except PyErr Val :=
  match pySubscr (Val.vDict config) "rating_weights" with
  | Except.error e => Except.error e
  | Except.ok rw =>
    match rw with
    | Val.vDict d => Except.ok ((getKey d (pyLower severity)).getD (Val.vNum (1/5)))
    | _ => Except.error PyErr.attributeError

/-- The list comprehension inside `get_enabled_rules`: collects, in
iteration order, every rule name whose `settings["enabled"]` is truthy,
raising if `settings` has no `"enabled"` entry or is not a dict. -/
def enabledNames : List (String × Val) → List String → Except PyErr (List String)
  | [], acc => Except.ok acc
  | (r, settings) :: rest, acc =>
    match pySubscr settings "enabled" with
    | Except.error e => Except.error e
    | Except.ok e =>
        enabledNames rest (if pyTruthy e then acc ++ [r] else acc)

/-- `RuleConfig.get_enabled_rules`.  Iterating `.items()` on a non-dict
bucket raises `AttributeError`. -/
def get_enabled_rules (config : Entries) (language : String) :
    Except PyErr (List String) :=
  match pySubscr (Val.vDict config) "rules" with
  | Except.error e => Except.error e
  | Except.ok rules =>
    match pyContains rules (pyLower language) with
    | Except.error e => Except.error e
    | Except.ok false => Except.ok []
    | Except.ok true =>
      match pySubscr rules (pyLower language) with
      | Except.error e => Except.error e
      | Except.ok bucket =>
        match bucket with
        | Val.vDict d => enabledNames d []
        | _ => Except.error PyErr.attributeError

/-- A rule entry holds both fields the queries subscript. -/
def wfEntry (v : Val) : Bool :=
  match v with
  | Val.vDict fs => (getKey fs "enabled").isSome && (getKey fs "severity").isSome
  | _ => false

/-- A language bucket is a dict of well-formed rule entries. -/
def wfBucket (v : Val) : Bool :=
  match v with
  | Val.vDict es => es.all (fun q => wfEntry q.2)
  | _ => false

/-- A category entry holds the `"enabled"` field. -/
def wfCatEntry (v : Val) : Bool :=
  match v with
  | Val.vDict fs => (getKey fs "enabled").isSome
  | _ => false

/-- The effective configuration keeps the schema shape of the defaults:
`rules` is a dict of dicts of entries holding `enabled` and `severity`,
`categories` a dict of entries holding `enabled`, `rating_weights` a
dict. -/
def wfConfig (c : Entries) : Bool :=
  (match getKey c "rules" with
   | some (Val.vDict langs) => langs.all (fun p => wfBucket p.2)
   | _ => false) &&
  ((match getKey c "categories" with
    | some (Val.vDict cats) => cats.all (fun p => wfCatEntry p.2)
    | _ => false) &&
   (match getKey c "rating_weights" with
    | some (Val.vDict _) => true
    | _ => false))

/-- A heap value (Python reference semantics): an immutable scalar or
list stored by value, or a reference to a mutable dict on the heap.
(The code never mutates lists, so storing them by value is
unobservable.) -/
inductive HVal where
  | scal (v : Val)
  | ref (a : Nat)

/-- Entries of a heap dict. -/
abbrev HEntries := List (String × HVal)

/-- The heap: dict number `a` lives at index `a`. -/
abbrev Heap := List HEntries

def heapGet (h : Heap) (a : Nat) : HEntries := h.getD a []

def heapSet (h : Heap) (a : Nat) (d : HEntries) : Heap := h.set a d

def hGetKey : HEntries → String → Option HVal
  | [], _ => none
  | (k, v) :: r, key => if k = key then some v else hGetKey r key

def hSetKey : HEntries → String → HVal → HEntries
  | [], key, v => [(key, v)]
  | (k, w) :: r, key, v =>
    if k = key then (key, v) :: r else (k, w) :: hSetKey r key v

/-- Allocate a parsed value on the heap: dicts become fresh heap nodes
(recursively, children first), everything else is stored by value.
Fuel-indexed to stay structurally recursive; `valSize` fuel suffices. -/
def allocF : Nat → Heap → Val → Heap × HVal
  | 0, h, v => (h, HVal.scal v)
  | n + 1, h, Val.vDict d =>
      let p := d.foldl (fun (acc : Heap × HEntries) (kv : String × Val) =>
        let q := allocF n acc.1 kv.2
        (q.1, acc.2 ++ [(kv.1, q.2)])) (h, [])
      (p.1 ++ [p.2], HVal.ref p.1.length)
  | _ + 1, h, v => (h, HVal.scal v)

def allocVal (h : Heap) (v : Val) : Heap × HVal := allocF (valSize v) h v

/-- `_merge_configs(default_config, user_config)` under Python reference
semantics: `a` is the address of the mutable base dict, `user` the
parsed override document.  When the base holds a dict reference at the
key and the user value is a dict, the recursion descends into the heap
node and mutates it in place — also for every other dict holding the
same reference; otherwise the user value is stored into the dict at
`a`. -/
def mergeHF : Nat → Heap → Nat → Entries → Heap
  | 0, h, _, _ => h
  | _ + 1, h, _, [] => h
  | n + 1, h, a, (k, v) :: rest =>
    match hGetKey (heapGet h a) k, v with
    | some (HVal.ref b), Val.vDict ud =>
        mergeHF n (mergeHF n h b ud) a rest
    | _, _ =>
        let q := allocVal h v
        mergeHF n (heapSet q.1 a (hSetKey (heapGet q.1 a) k q.2)) a rest

def mergeHeap (h : Heap) (a : Nat) (user : Entries) : Heap :=
  mergeHF (entriesSize user) h a user

/-- `DEFAULT_CONFIG.copy()`: allocate a NEW top-level dict holding the
same entries — nested values stay shared references (a shallow copy). -/
def dictCopy (h : Heap) (a : Nat) : Heap × Nat :=
  (h ++ [heapGet h a], h.length)

/-- Follow a key path through heap dicts starting at address `a`. -/
def hReadPath : Heap → Nat → List String → Option HVal
  | _, a, [] => some (HVal.ref a)
  | h, a, [k] => hGetKey (heapGet h a) k
  | h, a, k :: ps =>
    match hGetKey (heapGet h a) k with
    | some (HVal.ref b) => hReadPath h b ps
    | _ => none

/-- Module import: the `DEFAULT_CONFIG` literal allocated on the heap. -/
def heap0 : Heap := (allocVal [] (Val.vDict defaultConfig)).1

/-- The address of the module-level `DEFAULT_CONFIG` dict. -/
def defaultAddr : Nat :=
  match (allocVal [] (Val.vDict defaultConfig)).2 with
  | HVal.ref a => a
  | HVal.scal _ => 0

/-- The override loaded in the contamination scenario. -/
def ovShallow : Entries :=
  [("rules", Val.vDict [("python", Val.vDict
     [("python_unused_import", Val.vDict [("severity", Val.vStr "high")])])])]

/-- `instC = RuleConfig()` constructed BEFORE any load: `self.config =
DEFAULT_CONFIG.copy()`. -/
def heap1 : Heap := (dictCopy heap0 defaultAddr).1

def addrC : Nat := (dictCopy heap0 defaultAddr).2

/-- `instA = RuleConfig()`. -/
def heap2 : Heap := (dictCopy heap1 defaultAddr).1

def addrA : Nat := (dictCopy heap1 defaultAddr).2

/-- `instA.load_config(path)` where the file parses to `ovShallow`:
`_merge_configs(instA.config, ovShallow)`. -/
def heap3 : Heap := mergeHeap heap2 addrA ovShallow

/-- `instB = RuleConfig()` constructed AFTER the load. -/
def heap4 : Heap := (dictCopy heap3 defaultAddr).1

def addrB : Nat := (dictCopy heap3 defaultAddr).2

/-- The path whose value the override changes. -/
def severityPath : List String :=
  ["rules", "python", "python_unused_import", "severity"]

/-- Override raising `python_unused_import`'s severity to `"high"` (the
scenario of the spec's override-wins property). -/
def ovSevHigh : Entries :=
  [("rules", Val.vDict [("python", Val.vDict
     [("python_unused_import", Val.vDict [("severity", Val.vStr "high")])])])]

/-- Override replacing the whole `rules` table by a string. -/
def ovRulesStr : Entries := [("rules", Val.vStr "x")]

/-- Override re-creating `rules` with a single one-rule bucket. -/
def ovNewBucket : Entries :=
  [("rules", Val.vDict [("python", Val.vDict
     [("myrule", Val.vDict
        [("enabled", Val.vBool true), ("severity", Val.vStr "high")])])])]

/-- Override adding a rule entry that lacks the `"enabled"` field. -/
def ovNoEnabled : Entries :=
  [("rules", Val.vDict [("python", Val.vDict
     [("myrule", Val.vDict [("severity", Val.vStr "high")])])])]

/-- The configuration after loading `ovNoEnabled` over the defaults. -/
def cfgNoEnabled : Entries :=
  (load_config defaultConfig (ParseResult.ok (Val.vDict ovNoEnabled))).1

/-- A reachable configuration that lost default keys: the first load
replaces the whole `rules` table by a string, the second re-creates it
with a single bucket holding one rule (the non-dict `rules` is replaced
wholesale, discarding the default buckets). -/
def cfgLossy : Entries :=
  (load_config
    (load_config defaultConfig (ParseResult.ok (Val.vDict ovRulesStr))).1
    (ParseResult.ok (Val.vDict ovNewBucket))).1

/-- Override adding two rules whose insertion order is not alphabetical. -/
def ovOrder : Entries :=
  [("rules", Val.vDict [("python", Val.vDict
     [("zz_rule", Val.vDict
        [("enabled", Val.vBool true), ("severity", Val.vStr "low")]),
      ("aa_rule", Val.vDict
        [("enabled", Val.vBool true), ("severity", Val.vStr "low")])])])]

/-- The configuration after loading `ovOrder` over the defaults: the
`python` bucket lists `zz_rule` before `aa_rule`. -/
def cfgOrder : Entries :=
  (load_config defaultConfig (ParseResult.ok (Val.vDict ovOrder))).1

/-- Override changing the configured weight of `low`. -/
def ovLowWeight : Entries :=
  [("rating_weights", Val.vDict [("low", Val.vNum (9/10))])]

/-- A rule bucket placed under the non-lowercase language key `"Python"`. -/
def casedBucket : Entries :=
  [("python_unused_import", Val.vDict
     [("enabled", Val.vBool false), ("severity", Val.vStr "high")])]

/-- Override nesting rules under `"Python"` instead of `"python"`. -/
def ovCased : Entries := [("rules", Val.vDict [("Python", Val.vDict casedBucket)])]

/-- The configuration after loading `ovCased` over the defaults. -/
def cfgCased : Entries :=
  (load_config defaultConfig (ParseResult.ok (Val.vDict ovCased))).1

/-- `isinstance(v, dict)`. -/
def isDictV : Val → Bool
  | Val.vDict _ => true
  | _ => false

/-- `pyLower` agrees with the library's `String.toLower`. -/
theorem pyLower_eq_toLower (s : String) : pyLower s = s.toLower := by
  rw [String.toLower, String.map_eq]
  rfl

theorem entriesSize_cons (k : String) (v : Val) (r : Entries) :
    entriesSize ((k, v) :: r) = 1 + valSize v + entriesSize r := by
  rfl

theorem valSize_vDict (d : Entries) : valSize (Val.vDict d) = 1 + entriesSize d := by
  rfl

/-- The fuel is irrelevant once it dominates the size of the user dict. -/
theorem mergeFuel_eq : ∀ n m base user, entriesSize user ≤ n → entriesSize user ≤ m →
    mergeFuel n base user = mergeFuel m base user := by
  intro n
  induction n with
  | zero =>
    intro m base user hn _
    cases user with
    | nil => cases m <;> rfl
    | cons p r =>
      exfalso
      obtain ⟨k, v⟩ := p
      rw [entriesSize_cons] at hn
      omega
  | succ n ih =>
    intro m base user hn hm
    cases user with
    | nil => cases m <;> rfl
    | cons p r =>
      obtain ⟨k, v⟩ := p
      cases m with
      | zero =>
        exfalso
        rw [entriesSize_cons] at hm
        omega
      | succ m =>
        rw [entriesSize_cons] at hn hm
        simp only [mergeFuel]
        cases hg : getKey base k with
        | none =>
          cases v <;> exact ih m _ r (by omega) (by omega)
        | some w =>
          cases w <;> cases v <;>
            first
            | exact ih m _ r (by omega) (by omega)
            | (rename_i bd ud
               have hud : entriesSize ud ≤ n := by
                 rw [valSize_vDict] at hn; omega
               have hud' : entriesSize ud ≤ m := by
                 rw [valSize_vDict] at hm; omega
               show mergeFuel n (setKey base k (Val.vDict (mergeFuel n bd ud))) r =
                 mergeFuel m (setKey base k (Val.vDict (mergeFuel m bd ud))) r
               rw [ih m bd ud hud hud']
               exact ih m _ r (by omega) (by omega))

theorem mergeConfigs_nil (base : Entries) : mergeConfigs base [] = base := by
  rfl

/-- One step of the merge when both sides hold dicts at the key. -/
theorem mergeConfigs_cons_rec (base : Entries) (k : String) (bd ud : Entries)
    (rest : Entries) (hb : getKey base k = some (Val.vDict bd)) :
    mergeConfigs base ((k, Val.vDict ud) :: rest) =
      mergeConfigs (setKey base k (Val.vDict (mergeConfigs bd ud))) rest := by
  have h1 : entriesSize ((k, Val.vDict ud) :: rest) =
      ((1 + entriesSize ud) + entriesSize rest) + 1 := by
    rw [entriesSize_cons, valSize_vDict]; omega
  show mergeFuel (entriesSize ((k, Val.vDict ud) :: rest)) base ((k, Val.vDict ud) :: rest) = _
  rw [h1]
  simp only [mergeFuel, hb]
  show mergeFuel ((1 + entriesSize ud) + entriesSize rest)
      (setKey base k (Val.vDict (mergeFuel ((1 + entriesSize ud) + entriesSize rest) bd ud))) rest = _
  rw [mergeFuel_eq _ (entriesSize ud) bd ud (by omega) (by omega),
    mergeFuel_eq _ (entriesSize rest) _ rest (by omega) (by omega)]
  rfl

/-- One step of the merge when the base has no dict at the key. -/
theorem mergeConfigs_cons_repl_base (base : Entries) (k : String) (v : Val)
    (rest : Entries) (hb : ∀ bd, getKey base k ≠ some (Val.vDict bd)) :
    mergeConfigs base ((k, v) :: rest) = mergeConfigs (setKey base k v) rest := by
  have h1 : entriesSize ((k, v) :: rest) = (valSize v + entriesSize rest) + 1 := by
    rw [entriesSize_cons]; omega
  show mergeFuel (entriesSize ((k, v) :: rest)) base ((k, v) :: rest) = _
  rw [h1]
  simp only [mergeFuel]
  cases hg : getKey base k with
  | none =>
    cases v <;>
      exact mergeFuel_eq _ (entriesSize rest) _ rest (by omega) (by omega)
  | some w =>
    cases w <;> cases v <;>
      first
      | exact mergeFuel_eq _ (entriesSize rest) _ rest (by omega) (by omega)
      | (rename_i bd ud
         exact absurd hg (hb bd))

/-- One step of the merge when the user value is not a dict. -/
theorem mergeConfigs_cons_repl_val (base : Entries) (k : String) (v : Val)
    (rest : Entries) (hv : ∀ ud, v ≠ Val.vDict ud) :
    mergeConfigs base ((k, v) :: rest) = mergeConfigs (setKey base k v) rest := by
  have h1 : entriesSize ((k, v) :: rest) = (valSize v + entriesSize rest) + 1 := by
    rw [entriesSize_cons]; omega
  show mergeFuel (entriesSize ((k, v) :: rest)) base ((k, v) :: rest) = _
  rw [h1]
  simp only [mergeFuel]
  cases hg : getKey base k with
  | none =>
    cases v <;>
      exact mergeFuel_eq _ (entriesSize rest) _ rest (by omega) (by omega)
  | some w =>
    cases w <;> cases v <;>
      first
      | exact mergeFuel_eq _ (entriesSize rest) _ rest (by omega) (by omega)
      | (rename_i bd ud
         exact absurd rfl (hv ud))

theorem stepVal_rec {base : Entries} {k : String} {bd : Entries} (ud : Entries)
    (hg : getKey base k = some (Val.vDict bd)) :
    stepVal base k (Val.vDict ud) = Val.vDict (mergeConfigs bd ud) := by
  unfold stepVal
  rw [hg]

theorem stepVal_of_base {base : Entries} {k : String} (v : Val)
    (hg : ∀ bd, getKey base k ≠ some (Val.vDict bd)) :
    stepVal base k v = v := by
  unfold stepVal
  cases hb : getKey base k with
  | none => cases v <;> rfl
  | some w =>
    cases w <;> cases v <;>
      first
      | rfl
      | (rename_i bd ud
         exact absurd hb (hg bd))

theorem stepVal_of_val {base : Entries} {k : String} (v : Val)
    (hv : ∀ ud, v ≠ Val.vDict ud) :
    stepVal base k v = v := by
  unfold stepVal
  cases hb : getKey base k with
  | none => cases v <;> rfl
  | some w =>
    cases w <;> cases v <;>
      first
      | rfl
      | (rename_i bd ud
         exact absurd rfl (hv ud))

theorem stepVal_congr {b1 b2 : Entries} {k : String} (v : Val)
    (h : getKey b1 k = getKey b2 k) : stepVal b1 k v = stepVal b2 k v := by
  unfold stepVal
  rw [h]

/-- The uniform one-step unfolding of the merge. -/
theorem mergeConfigs_cons (base : Entries) (k : String) (v : Val) (rest : Entries) :
    mergeConfigs base ((k, v) :: rest) =
      mergeConfigs (setKey base k (stepVal base k v)) rest := by
  cases hb : getKey base k with
  | none =>
    have hne : ∀ bd, getKey base k ≠ some (Val.vDict bd) := by
      intro bd h
      rw [hb] at h
      exact Option.noConfusion h
    rw [stepVal_of_base v hne]
    exact mergeConfigs_cons_repl_base base k v rest hne
  | some w =>
    cases w with
    | vDict bd =>
      cases v with
      | vDict ud =>
        rw [stepVal_rec ud hb]
        exact mergeConfigs_cons_rec base k bd ud rest hb
      | vStr s =>
        rw [stepVal_of_val _ (fun ud h => Val.noConfusion h)]
        exact mergeConfigs_cons_repl_val base k _ rest (fun ud h => Val.noConfusion h)
      | vBool b =>
        rw [stepVal_of_val _ (fun ud h => Val.noConfusion h)]
        exact mergeConfigs_cons_repl_val base k _ rest (fun ud h => Val.noConfusion h)
      | vNum q =>
        rw [stepVal_of_val _ (fun ud h => Val.noConfusion h)]
        exact mergeConfigs_cons_repl_val base k _ rest (fun ud h => Val.noConfusion h)
      | vNull =>
        rw [stepVal_of_val _ (fun ud h => Val.noConfusion h)]
        exact mergeConfigs_cons_repl_val base k _ rest (fun ud h => Val.noConfusion h)
      | vList xs =>
        rw [stepVal_of_val _ (fun ud h => Val.noConfusion h)]
        exact mergeConfigs_cons_repl_val base k _ rest (fun ud h => Val.noConfusion h)
    | vStr s =>
      have hne : ∀ bd, getKey base k ≠ some (Val.vDict bd) := by
        intro bd h
        rw [hb] at h
        exact absurd (Option.some.inj h) (fun hh => Val.noConfusion hh)
      rw [stepVal_of_base v hne]
      exact mergeConfigs_cons_repl_base base k v rest hne
    | vBool b =>
      have hne : ∀ bd, getKey base k ≠ some (Val.vDict bd) := by
        intro bd h
        rw [hb] at h
        exact absurd (Option.some.inj h) (fun hh => Val.noConfusion hh)
      rw [stepVal_of_base v hne]
      exact mergeConfigs_cons_repl_base base k v rest hne
    | vNum q =>
      have hne : ∀ bd, getKey base k ≠ some (Val.vDict bd) := by
        intro bd h
        rw [hb] at h
        exact absurd (Option.some.inj h) (fun hh => Val.noConfusion hh)
      rw [stepVal_of_base v hne]
      exact mergeConfigs_cons_repl_base base k v rest hne
    | vNull =>
      have hne : ∀ bd, getKey base k ≠ some (Val.vDict bd) := by
        intro bd h
        rw [hb] at h
        exact absurd (Option.some.inj h) (fun hh => Val.noConfusion hh)
      rw [stepVal_of_base v hne]
      exact mergeConfigs_cons_repl_base base k v rest hne
    | vList xs =>
      have hne : ∀ bd, getKey base k ≠ some (Val.vDict bd) := by
        intro bd h
        rw [hb] at h
        exact absurd (Option.some.inj h) (fun hh => Val.noConfusion hh)
      rw [stepVal_of_base v hne]
      exact mergeConfigs_cons_repl_base base k v rest hne

theorem getKey_setKey_self : ∀ (d : Entries) (k : String) (v : Val),
    getKey (setKey d k v) k = some v := by
  intro d
  induction d with
  | nil =>
    intro k v
    simp [getKey, setKey]
  | cons p r ih =>
    intro k v
    obtain ⟨k1, w⟩ := p
    by_cases h : k1 = k <;> simp [getKey, setKey, h, ih]

theorem getKey_setKey_ne : ∀ (d : Entries) (k : String) (v : Val) (q : String),
    q ≠ k → getKey (setKey d k v) q = getKey d q := by
  intro d
  induction d with
  | nil =>
    intro k v q h
    have hk : ¬ (k = q) := fun he => h he.symm
    simp [getKey, setKey, hk]
  | cons p r ih =>
    intro k v q h
    obtain ⟨k1, w⟩ := p
    by_cases h1 : k1 = k
    · subst h1
      have hk : ¬ (k1 = q) := fun he => h he.symm
      simp [getKey, setKey, hk]
    · by_cases h2 : k1 = q <;> simp [getKey, setKey, h1, h2, h, ih k v q h]

theorem setKey_self : ∀ (d : Entries) (k : String) (v : Val),
    getKey d k = some v → setKey d k v = d := by
  intro d
  induction d with
  | nil =>
    intro k v h
    exact Option.noConfusion h
  | cons p r ih =>
    intro k v h
    obtain ⟨k1, w⟩ := p
    by_cases h1 : k1 = k
    · subst h1
      simp [getKey] at h
      simp [setKey, h]
    · simp [getKey, h1] at h
      simp [setKey, h1, ih k v h]

theorem setKey_absent : ∀ (d : Entries) (k : String) (v : Val),
    getKey d k = none → setKey d k v = d ++ [(k, v)] := by
  intro d
  induction d with
  | nil =>
    intro k v _
    rfl
  | cons p r ih =>
    intro k v h
    obtain ⟨k1, w⟩ := p
    by_cases h1 : k1 = k
    · simp [getKey, h1] at h
    · simp [getKey, h1] at h
      simp [setKey, h1, ih k v h]

theorem getKey_append : ∀ (xs ys : Entries) (k : String),
    getKey (xs ++ ys) k =
      (match getKey xs k with
       | some v => some v
       | none => getKey ys k) := by
  intro xs
  induction xs with
  | nil =>
    intro ys k
    rfl
  | cons p r ih =>
    intro ys k
    obtain ⟨k1, w⟩ := p
    by_cases h1 : k1 = k <;> simp [getKey, h1, ih]

theorem getKey_append_ne (xs : Entries) (k0 : String) (v0 : Val) (k : String)
    (h : k ≠ k0) : getKey (xs ++ [(k0, v0)]) k = getKey xs k := by
  rw [getKey_append]
  cases hg : getKey xs k with
  | none =>
    have hk : ¬ (k0 = k) := fun he => h he.symm
    simp [getKey, hk]
  | some w => rfl

theorem getKey_none_iff : ∀ (d : Entries) (k : String),
    getKey d k = none ↔ k ∉ d.map Prod.fst := by
  intro d
  induction d with
  | nil =>
    intro k
    simp [getKey]
  | cons p r ih =>
    intro k
    obtain ⟨k1, w⟩ := p
    by_cases h1 : k1 = k
    · subst h1
      simp [getKey]
    · have hk : ¬ (k = k1) := fun he => h1 he.symm
      simp [getKey, h1, hk, ih]

theorem getKey_some_mem : ∀ (d : Entries) (k : String) (v : Val),
    getKey d k = some v → (k, v) ∈ d := by
  intro d
  induction d with
  | nil =>
    intro k v h
    exact Option.noConfusion h
  | cons p r ih =>
    intro k v h
    obtain ⟨k1, w⟩ := p
    by_cases h1 : k1 = k
    · subst h1
      simp [getKey] at h
      simp [h]
    · simp [getKey, h1] at h
      exact List.mem_cons_of_mem _ (ih k v h)

theorem getKey_mem_nodup : ∀ (d : Entries), (d.map Prod.fst).Nodup →
    ∀ (k : String) (v : Val), (k, v) ∈ d → getKey d k = some v := by
  intro d
  induction d with
  | nil =>
    intro _ k v h
    simp at h
  | cons p r ih =>
    intro hnd k v h
    obtain ⟨k1, w⟩ := p
    simp only [List.map_cons, List.nodup_cons] at hnd
    rcases List.mem_cons.mp h with h1 | h1
    · rw [Prod.mk.injEq] at h1
      obtain ⟨hk, hv⟩ := h1
      subst hk
      subst hv
      simp [getKey]
    · have hk1 : k1 ≠ k := by
        intro he
        subst he
        exact hnd.1 (List.mem_map.mpr ⟨(k1, v), h1, rfl⟩)
      simp [getKey, hk1]
      exact ih hnd.2 k v h1

theorem merge_getKey_absent : ∀ (user base : Entries) (k : String),
    (∀ p ∈ user, p.1 ≠ k) →
    getKey (mergeConfigs base user) k = getKey base k := by
  intro user
  induction user with
  | nil =>
    intro base k _
    rw [mergeConfigs_nil]
  | cons p r ih =>
    intro base k h
    obtain ⟨k1, v⟩ := p
    rw [mergeConfigs_cons]
    rw [ih _ k (fun q hq => h q (List.mem_cons_of_mem _ hq))]
    exact getKey_setKey_ne base k1 _ k
      (fun (he : k = k1) => h (k1, v) (List.mem_cons_self _ _) he.symm)

theorem merge_head_untouched : ∀ (u : Entries) (k : String) (w : Val) (b : Entries),
    (∀ p ∈ u, p.1 ≠ k) →
    mergeConfigs ((k, w) :: b) u = (k, w) :: mergeConfigs b u := by
  intro u
  induction u with
  | nil =>
    intro k w b _
    rw [mergeConfigs_nil, mergeConfigs_nil]
  | cons p r ih =>
    intro k w b h
    obtain ⟨k2, v2⟩ := p
    have hk2 : k2 ≠ k := h (k2, v2) (List.mem_cons_self _ _)
    have hk : ¬ (k = k2) := fun he => hk2 he.symm
    have hget : getKey ((k, w) :: b) k2 = getKey b k2 := by
      simp [getKey, hk]
    rw [mergeConfigs_cons, mergeConfigs_cons]
    rw [stepVal_congr v2 hget]
    have hset : setKey ((k, w) :: b) k2 (stepVal b k2 v2) =
        (k, w) :: setKey b k2 (stepVal b k2 v2) := by
      simp [setKey, hk]
    rw [hset]
    exact ih k w _ (fun q hq => h q (List.mem_cons_of_mem _ hq))

theorem merge_absent_append : ∀ (u b : Entries), (u.map Prod.fst).Nodup →
    (∀ p ∈ u, getKey b p.1 = none) → mergeConfigs b u = b ++ u := by
  intro u
  induction u with
  | nil =>
    intro b _ _
    rw [mergeConfigs_nil, List.append_nil]
  | cons p r ih =>
    intro b hnd h
    obtain ⟨k, v⟩ := p
    have hb : getKey b k = none := h (k, v) (List.mem_cons_self _ _)
    have hne : ∀ bd, getKey b k ≠ some (Val.vDict bd) := by
      intro bd hh
      rw [hb] at hh
      exact Option.noConfusion hh
    rw [mergeConfigs_cons, stepVal_of_base v hne, setKey_absent b k v hb]
    simp only [List.map_cons, List.nodup_cons] at hnd
    rw [ih (b ++ [(k, v)]) hnd.2]
    · rw [List.append_assoc]
      rfl
    · intro q hq
      rw [getKey_append]
      rw [h q (List.mem_cons_of_mem _ hq)]
      have hq1 : q.1 ≠ k := by
        intro he
        exact hnd.1 (he ▸ List.mem_map.mpr ⟨q, hq, rfl⟩)
      have hk : ¬ (k = q.1) := fun he => hq1 he.symm
      simp [getKey, hk]

theorem valSize_pos (v : Val) : 1 ≤ valSize v := by
  cases v <;> simp [valSize]

theorem valSize_le_of_mem : ∀ (d : Entries) (p : String × Val),
    p ∈ d → valSize p.2 ≤ entriesSize d := by
  intro d
  induction d with
  | nil =>
    intro p h
    simp at h
  | cons q r ih =>
    intro p h
    obtain ⟨k1, v1⟩ := q
    rcases List.mem_cons.mp h with h1 | h1
    · subst h1
      rw [entriesSize_cons]
      show valSize v1 ≤ 1 + valSize v1 + entriesSize r
      omega
    · have hle := ih p h1
      rw [entriesSize_cons]
      omega

theorem all_congr_mem {α : Type} (l : List α) (f g : α → Bool)
    (h : ∀ x ∈ l, f x = g x) : l.all f = l.all g := by
  induction l with
  | nil => rfl
  | cons a t ih =>
    simp only [List.all_cons]
    rw [h a (List.mem_cons_self _ _), ih (fun x hx => h x (List.mem_cons_of_mem _ hx))]

theorem nodupValF_eq : ∀ n m v, valSize v ≤ n → valSize v ≤ m →
    nodupValF n v = nodupValF m v := by
  intro n
  induction n with
  | zero =>
    intro m v hn _
    have := valSize_pos v
    exact absurd hn (by omega)
  | succ n ih =>
    intro m v hn hm
    cases m with
    | zero =>
      have := valSize_pos v
      exact absurd hm (by omega)
    | succ m =>
      cases v with
      | vDict d =>
        simp only [nodupValF]
        congr 1
        apply all_congr_mem
        intro p hp
        have h1 := valSize_le_of_mem d p hp
        rw [valSize_vDict] at hn hm
        exact ih m p.2 (by omega) (by omega)
      | vStr s => rfl
      | vBool b => rfl
      | vNum q => rfl
      | vNull => rfl
      | vList xs => rfl

theorem nodupVal_dict_iff (d : Entries) :
    nodupVal (Val.vDict d) = true ↔
      ((d.map Prod.fst).Nodup ∧ ∀ p ∈ d, nodupVal p.2 = true) := by
  unfold nodupVal
  rw [valSize_vDict]
  rw [show 1 + entriesSize d = entriesSize d + 1 from by omega]
  constructor
  · intro h
    simp only [nodupValF] at h
    rw [Bool.and_eq_true] at h
    obtain ⟨h1, h2⟩ := h
    refine ⟨of_decide_eq_true h1, ?_⟩
    intro p hp
    have h3 := List.all_eq_true.mp h2 p hp
    rw [nodupValF_eq (valSize p.2) (entriesSize d) p.2 (le_refl _)
      (valSize_le_of_mem d p hp)]
    exact h3
  · intro h
    obtain ⟨h1, h2⟩ := h
    simp only [nodupValF]
    rw [Bool.and_eq_true]
    refine ⟨decide_eq_true h1, ?_⟩
    rw [List.all_eq_true]
    intro p hp
    rw [nodupValF_eq (entriesSize d) (valSize p.2) p.2
      (valSize_le_of_mem d p hp) (le_refl _)]
    exact h2 p hp

/-- Merging a dict whose every entry already agrees with the base leaves
the base unchanged (in particular `merge d d = d` for duplicate-free `d`). -/
theorem merge_self_entries : ∀ (N : Nat) (u d : Entries), entriesSize u ≤ N →
    (∀ p ∈ u, nodupVal p.2 = true) →
    (∀ p ∈ u, getKey d p.1 = some p.2) →
    mergeConfigs d u = d := by
  intro N
  induction N with
  | zero =>
    intro u d hn _ _
    cases u with
    | nil => exact mergeConfigs_nil d
    | cons p r =>
      obtain ⟨k, v⟩ := p
      rw [entriesSize_cons] at hn
      exact absurd hn (by omega)
  | succ N ih =>
    intro u d hn hnd hget
    cases u with
    | nil => exact mergeConfigs_nil d
    | cons p r =>
      obtain ⟨k, v⟩ := p
      rw [entriesSize_cons] at hn
      have hgk : getKey d k = some v := hget (k, v) (List.mem_cons_self _ _)
      have hstep : stepVal d k v = v := by
        cases v with
        | vDict vd =>
          rw [stepVal_rec vd hgk]
          have hnv := (nodupVal_dict_iff vd).mp
            (hnd (k, Val.vDict vd) (List.mem_cons_self _ _))
          have hsz : entriesSize vd ≤ N := by
            rw [valSize_vDict] at hn
            omega
          rw [ih vd vd hsz hnv.2
            (fun q hq => getKey_mem_nodup vd hnv.1 q.1 q.2 hq)]
        | vStr s => exact stepVal_of_val _ (fun ud h => Val.noConfusion h)
        | vBool b => exact stepVal_of_val _ (fun ud h => Val.noConfusion h)
        | vNum q => exact stepVal_of_val _ (fun ud h => Val.noConfusion h)
        | vNull => exact stepVal_of_val _ (fun ud h => Val.noConfusion h)
        | vList xs => exact stepVal_of_val _ (fun ud h => Val.noConfusion h)
      rw [mergeConfigs_cons, hstep, setKey_self d k v hgk]
      exact ih r d (by omega)
        (fun q hq => hnd q (List.mem_cons_of_mem _ hq))
        (fun q hq => hget q (List.mem_cons_of_mem _ hq))

/-- Idempotence of the merge for duplicate-free override documents. -/
theorem merge_idem_general : ∀ (N : Nat) (ov : Entries), entriesSize ov ≤ N →
    nodupVal (Val.vDict ov) = true →
    ∀ b, mergeConfigs (mergeConfigs b ov) ov = mergeConfigs b ov := by
  intro N
  induction N with
  | zero =>
    intro ov hn _ b
    cases ov with
    | nil => rw [mergeConfigs_nil]
    | cons p r =>
      obtain ⟨k, v⟩ := p
      rw [entriesSize_cons] at hn
      exact absurd hn (by omega)
  | succ N ih =>
    intro ov hn hnv b
    cases ov with
    | nil => rw [mergeConfigs_nil]
    | cons p r =>
      obtain ⟨k, v⟩ := p
      rw [entriesSize_cons] at hn
      obtain ⟨hknd, hvals⟩ := (nodupVal_dict_iff _).mp hnv
      simp only [List.map_cons, List.nodup_cons] at hknd
      obtain ⟨hkr, hrnd⟩ := hknd
      have hrne : ∀ q ∈ r, (q : String × Val).1 ≠ k := by
        intro q hq he
        exact hkr (he ▸ List.mem_map.mpr ⟨q, hq, rfl⟩)
      have hrnodup : nodupVal (Val.vDict r) = true :=
        (nodupVal_dict_iff r).mpr
          ⟨hrnd, fun q hq => hvals q (List.mem_cons_of_mem _ hq)⟩
      rw [mergeConfigs_cons b k v r]
      rw [mergeConfigs_cons (mergeConfigs (setKey b k (stepVal b k v)) r) k v r]
      have hXk : getKey (mergeConfigs (setKey b k (stepVal b k v)) r) k =
          some (stepVal b k v) := by
        rw [merge_getKey_absent r _ k hrne]
        exact getKey_setKey_self b k _
      have hstep : stepVal (mergeConfigs (setKey b k (stepVal b k v)) r) k v =
          stepVal b k v := by
        cases v with
        | vDict ud =>
          have hudnv : nodupVal (Val.vDict ud) = true :=
            hvals (k, Val.vDict ud) (List.mem_cons_self _ _)
          have hiff := (nodupVal_dict_iff ud).mp hudnv
          have hsz : entriesSize ud ≤ N := by
            rw [valSize_vDict] at hn
            omega
          by_cases hex : ∃ bd, getKey b k = some (Val.vDict bd)
          · obtain ⟨bd, hbk⟩ := hex
            rw [stepVal_rec ud hbk]
            have hXk2 : getKey (mergeConfigs
                (setKey b k (Val.vDict (mergeConfigs bd ud))) r) k =
                some (Val.vDict (mergeConfigs bd ud)) := by
              rw [merge_getKey_absent r _ k hrne]
              exact getKey_setKey_self b k _
            rw [stepVal_rec ud hXk2]
            rw [ih ud hsz hudnv bd]
          · have hbne : ∀ bd, getKey b k ≠ some (Val.vDict bd) :=
              fun bd hh => hex ⟨bd, hh⟩
            rw [stepVal_of_base _ hbne]
            have hXk2 : getKey (mergeConfigs (setKey b k (Val.vDict ud)) r) k =
                some (Val.vDict ud) := by
              rw [merge_getKey_absent r _ k hrne]
              exact getKey_setKey_self b k _
            rw [stepVal_rec ud hXk2]
            rw [merge_self_entries (entriesSize ud) ud ud (le_refl _) hiff.2
              (fun q hq => getKey_mem_nodup ud hiff.1 q.1 q.2 hq)]
        | vStr s =>
          rw [stepVal_of_val _ (fun ud h => Val.noConfusion h),
            stepVal_of_val _ (fun ud h => Val.noConfusion h)]
        | vBool bb =>
          rw [stepVal_of_val _ (fun ud h => Val.noConfusion h),
            stepVal_of_val _ (fun ud h => Val.noConfusion h)]
        | vNum q =>
          rw [stepVal_of_val _ (fun ud h => Val.noConfusion h),
            stepVal_of_val _ (fun ud h => Val.noConfusion h)]
        | vNull =>
          rw [stepVal_of_val _ (fun ud h => Val.noConfusion h),
            stepVal_of_val _ (fun ud h => Val.noConfusion h)]
        | vList xs =>
          rw [stepVal_of_val _ (fun ud h => Val.noConfusion h),
            stepVal_of_val _ (fun ud h => Val.noConfusion h)]
      rw [hstep]
      rw [setKey_self _ k _ hXk]
      exact ih r (by omega) hrnodup (setKey b k (stepVal b k v))

example : is_rule_enabled defaultConfig "python_sql_injection" "Python" =
    Except.ok (Val.vBool true) := rfl

example : get_rule_severity defaultConfig "python_sql_injection" "Python" "low" =
    Except.ok (Val.vStr "critical") := rfl

example : get_rating_weight defaultConfig "CRITICAL" = Except.ok (Val.vNum 2) := rfl

example : get_enabled_rules defaultConfig "python" =
    Except.ok ["python_naming_convention", "python_unused_import",
      "python_except_pass", "python_sql_injection", "python_nested_loop"] := rfl

example :
    mergeConfigs defaultConfig
      [("rules", Val.vDict [("python", Val.vDict
        [("python_unused_import", Val.vDict [("severity", Val.vStr "high")])])])] =
      [("rules", Val.vDict
        [("python", Val.vDict
          [("python_naming_convention", Val.vDict
              [("enabled", Val.vBool true), ("severity", Val.vStr "medium")]),
           ("python_unused_import", Val.vDict
              [("enabled", Val.vBool true), ("severity", Val.vStr "high")]),
           ("python_except_pass", Val.vDict
              [("enabled", Val.vBool true), ("severity", Val.vStr "high")]),
           ("python_sql_injection", Val.vDict
              [("enabled", Val.vBool true), ("severity", Val.vStr "critical")]),
           ("python_nested_loop", Val.vDict
              [("enabled", Val.vBool true), ("severity", Val.vStr "medium")])]),
         ("javascript", Val.vDict
          [("javascript_var_usage", Val.vDict
              [("enabled", Val.vBool true), ("severity", Val.vStr "medium")]),
           ("javascript_equality", Val.vDict
              [("enabled", Val.vBool true), ("severity", Val.vStr "high")]),
           ("javascript_eval", Val.vDict
              [("enabled", Val.vBool true), ("severity", Val.vStr "critical")]),
           ("javascript_array_foreach", Val.vDict
              [("enabled", Val.vBool true), ("severity", Val.vStr "low")])])]),
       ("categories", Val.vDict defaultCategories),
       ("severity_levels", Val.vList
          [Val.vStr "critical", Val.vStr "high", Val.vStr "medium", Val.vStr "low"]),
       ("rating_weights", Val.vDict defaultRatingWeights)] := rfl

theorem wfEntry_elim {v : Val} (h : wfEntry v = true) :
    ∃ fs ev sv, v = Val.vDict fs ∧
      getKey fs "enabled" = some ev ∧ getKey fs "severity" = some sv := by
  cases v with
  | vDict fs =>
    simp only [wfEntry] at h
    rw [Bool.and_eq_true] at h
    obtain ⟨ev, hev⟩ := Option.isSome_iff_exists.mp h.1
    obtain ⟨sv, hsv⟩ := Option.isSome_iff_exists.mp h.2
    exact ⟨fs, ev, sv, rfl, hev, hsv⟩
  | vStr s => simp [wfEntry] at h
  | vBool b => simp [wfEntry] at h
  | vNum q => simp [wfEntry] at h
  | vNull => simp [wfEntry] at h
  | vList xs => simp [wfEntry] at h

theorem wfBucket_elim {v : Val} (h : wfBucket v = true) :
    ∃ es, v = Val.vDict es ∧ ∀ p ∈ es, wfEntry (p : String × Val).2 = true := by
  cases v with
  | vDict es =>
    simp only [wfBucket] at h
    exact ⟨es, rfl, List.all_eq_true.mp h⟩
  | vStr s => simp [wfBucket] at h
  | vBool b => simp [wfBucket] at h
  | vNum q => simp [wfBucket] at h
  | vNull => simp [wfBucket] at h
  | vList xs => simp [wfBucket] at h

theorem wfCatEntry_elim {v : Val} (h : wfCatEntry v = true) :
    ∃ fs ev, v = Val.vDict fs ∧ getKey fs "enabled" = some ev := by
  cases v with
  | vDict fs =>
    simp only [wfCatEntry] at h
    obtain ⟨ev, hev⟩ := Option.isSome_iff_exists.mp h
    exact ⟨fs, ev, rfl, hev⟩
  | vStr s => simp [wfCatEntry] at h
  | vBool b => simp [wfCatEntry] at h
  | vNum q => simp [wfCatEntry] at h
  | vNull => simp [wfCatEntry] at h
  | vList xs => simp [wfCatEntry] at h

theorem wfConfig_elim {c : Entries} (h : wfConfig c = true) :
    (∃ langs, getKey c "rules" = some (Val.vDict langs) ∧
      ∀ p ∈ langs, wfBucket (p : String × Val).2 = true) ∧
    (∃ cats, getKey c "categories" = some (Val.vDict cats) ∧
      ∀ p ∈ cats, wfCatEntry (p : String × Val).2 = true) ∧
    (∃ rw, getKey c "rating_weights" = some (Val.vDict rw)) := by
  unfold wfConfig at h
  rw [Bool.and_eq_true, Bool.and_eq_true] at h
  obtain ⟨h1, h2, h3⟩ := h
  refine ⟨?_, ?_, ?_⟩
  · cases hr : getKey c "rules" with
    | none => rw [hr] at h1; exact absurd h1 (by simp)
    | some v =>
      rw [hr] at h1
      cases v with
      | vDict langs => exact ⟨langs, rfl, List.all_eq_true.mp h1⟩
      | vStr s => exact absurd h1 (by simp)
      | vBool b => exact absurd h1 (by simp)
      | vNum q => exact absurd h1 (by simp)
      | vNull => exact absurd h1 (by simp)
      | vList xs => exact absurd h1 (by simp)
  · cases hr : getKey c "categories" with
    | none => rw [hr] at h2; exact absurd h2 (by simp)
    | some v =>
      rw [hr] at h2
      cases v with
      | vDict cats => exact ⟨cats, rfl, List.all_eq_true.mp h2⟩
      | vStr s => exact absurd h2 (by simp)
      | vBool b => exact absurd h2 (by simp)
      | vNum q => exact absurd h2 (by simp)
      | vNull => exact absurd h2 (by simp)
      | vList xs => exact absurd h2 (by simp)
  · cases hr : getKey c "rating_weights" with
    | none => rw [hr] at h3; exact absurd h3 (by simp)
    | some v =>
      rw [hr] at h3
      cases v with
      | vDict rw2 => exact ⟨rw2, rfl⟩
      | vStr s => exact absurd h3 (by simp)
      | vBool b => exact absurd h3 (by simp)
      | vNum q => exact absurd h3 (by simp)
      | vNull => exact absurd h3 (by simp)
      | vList xs => exact absurd h3 (by simp)

theorem enabledNames_ok : ∀ (d : List (String × Val)),
    (∀ p ∈ d, ∃ v, pySubscr (p : String × Val).2 "enabled" = Except.ok v) →
    ∀ acc, ∃ out, enabledNames d acc = Except.ok out := by
  intro d
  induction d with
  | nil =>
    intro _ acc
    exact ⟨acc, rfl⟩
  | cons p r ih =>
    intro h acc
    obtain ⟨k, s⟩ := p
    obtain ⟨v, hv⟩ := h (k, s) (List.mem_cons_self _ _)
    simp only [enabledNames]
    rw [hv]
    exact ih (fun q hq => h q (List.mem_cons_of_mem _ hq)) _

theorem enabledNames_mem : ∀ (d : List (String × Val)) (acc names : List String),
    enabledNames d acc = Except.ok names →
    ∀ x ∈ names, x ∈ acc ∨ x ∈ d.map Prod.fst := by
  intro d
  induction d with
  | nil =>
    intro acc names h x hx
    left
    have h1 : acc = names := by
      injection h
    rw [h1]
    exact hx
  | cons p r ih =>
    intro acc names h x hx
    obtain ⟨k, s⟩ := p
    simp only [enabledNames] at h
    cases he : pySubscr s "enabled" with
    | error e =>
      rw [he] at h
      exact Except.noConfusion h
    | ok v =>
      rw [he] at h
      rcases ih _ names h x hx with h1 | h1
      · by_cases ht : pyTruthy v
        · rw [if_pos ht] at h1
          rcases List.mem_append.mp h1 with h2 | h2
          · exact Or.inl h2
          · right
            have h3 : x = k := by simpa using h2
            subst h3
            simp
        · rw [if_neg ht] at h1
          exact Or.inl h1
      · right
        simp only [List.map_cons]
        exact List.mem_cons_of_mem _ h1

theorem is_rule_enabled_ok (c langs : Entries)
    (hr : getKey c "rules" = some (Val.vDict langs))
    (hwr : ∀ p ∈ langs, wfBucket (p : String × Val).2 = true)
    (rule lang : String) : ∃ v, is_rule_enabled c rule lang = Except.ok v := by
  unfold is_rule_enabled
  simp only [pySubscr, pyContains, hr]
  cases hb : getKey langs (pyLower lang) with
  | none => exact ⟨Val.vBool true, rfl⟩
  | some bucket =>
    have hbwf : wfBucket bucket = true :=
      hwr (pyLower lang, bucket) (getKey_some_mem langs _ _ hb)
    obtain ⟨es, rfl, hes⟩ := wfBucket_elim hbwf
    simp only [pyContains]
    cases he : getKey es rule with
    | none => exact ⟨Val.vBool true, rfl⟩
    | some entry =>
      have hewf : wfEntry entry = true := hes (rule, entry) (getKey_some_mem es _ _ he)
      obtain ⟨fs, ev, sv, rfl, hev, hsv⟩ := wfEntry_elim hewf
      refine ⟨ev, ?_⟩
      simp only [pySubscr, hev]
      rfl

theorem get_rule_severity_ok (c langs : Entries)
    (hr : getKey c "rules" = some (Val.vDict langs))
    (hwr : ∀ p ∈ langs, wfBucket (p : String × Val).2 = true)
    (rule lang d : String) : ∃ v, get_rule_severity c rule lang d = Except.ok v := by
  unfold get_rule_severity
  simp only [pySubscr, pyContains, hr]
  cases hb : getKey langs (pyLower lang) with
  | none => exact ⟨Val.vStr d, rfl⟩
  | some bucket =>
    have hbwf : wfBucket bucket = true :=
      hwr (pyLower lang, bucket) (getKey_some_mem langs _ _ hb)
    obtain ⟨es, rfl, hes⟩ := wfBucket_elim hbwf
    simp only [pyContains]
    cases he : getKey es rule with
    | none => exact ⟨Val.vStr d, rfl⟩
    | some entry =>
      have hewf : wfEntry entry = true := hes (rule, entry) (getKey_some_mem es _ _ he)
      obtain ⟨fs, ev, sv, rfl, hev, hsv⟩ := wfEntry_elim hewf
      refine ⟨sv, ?_⟩
      simp only [pySubscr, hsv]
      rfl

theorem is_category_enabled_ok (c cats : Entries)
    (hr : getKey c "categories" = some (Val.vDict cats))
    (hwc : ∀ p ∈ cats, wfCatEntry (p : String × Val).2 = true)
    (cat : String) : ∃ v, is_category_enabled c cat = Except.ok v := by
  unfold is_category_enabled
  simp only [pySubscr, pyContains, hr]
  cases hb : getKey cats cat with
  | none => exact ⟨Val.vBool true, rfl⟩
  | some entry =>
    have hewf : wfCatEntry entry = true :=
      hwc (cat, entry) (getKey_some_mem cats _ _ hb)
    obtain ⟨fs, ev, rfl, hev⟩ := wfCatEntry_elim hewf
    refine ⟨ev, ?_⟩
    simp only [pySubscr, hev]
    rfl

theorem get_rating_weight_ok (c rw : Entries)
    (hr : getKey c "rating_weights" = some (Val.vDict rw))
    (sev : String) : ∃ v, get_rating_weight c sev = Except.ok v := by
  unfold get_rating_weight
  simp only [pySubscr, hr]
  exact ⟨_, rfl⟩

theorem get_enabled_rules_ok (c langs : Entries)
    (hr : getKey c "rules" = some (Val.vDict langs))
    (hwr : ∀ p ∈ langs, wfBucket (p : String × Val).2 = true)
    (lang : String) : ∃ out, get_enabled_rules c lang = Except.ok out := by
  unfold get_enabled_rules
  simp only [pySubscr, pyContains, hr]
  cases hb : getKey langs (pyLower lang) with
  | none => exact ⟨[], rfl⟩
  | some bucket =>
    have hbwf : wfBucket bucket = true :=
      hwr (pyLower lang, bucket) (getKey_some_mem langs _ _ hb)
    obtain ⟨es, rfl, hes⟩ := wfBucket_elim hbwf
    apply enabledNames_ok
    intro p hp
    obtain ⟨fs, ev, sv, hfs, hev, hsv⟩ := wfEntry_elim (hes p hp)
    refine ⟨ev, ?_⟩
    rw [hfs]
    simp only [pySubscr, hev]

example : hReadPath heap0 defaultAddr severityPath =
    some (HVal.scal (Val.vStr "low")) := rfl

example : hReadPath heap4 defaultAddr severityPath =
    some (HVal.scal (Val.vStr "high")) := rfl

theorem toNat_ofNat_small (m : Nat) (h1 : 97 ≤ m) (h2 : m ≤ 122) :
    (Char.ofNat m).toNat = m := by
  have hv : m.isValidChar := Or.inl (by omega)
  rw [Char.ofNat, dif_pos hv]
  rfl

theorem char_toLower_ne_P (c : Char) : c.toLower ≠ 'P' := by
  intro h
  rw [Char.toLower] at h
  by_cases hc : c.toNat ≥ 65 ∧ c.toNat ≤ 90
  · rw [if_pos hc] at h
    have h2 := congrArg Char.toNat h
    rw [toNat_ofNat_small _ (by omega) (by omega)] at h2
    have hp : ('P' : Char).toNat = 80 := by decide
    omega
  · rw [if_neg hc] at h
    subst h
    exact hc (by decide)

theorem char_toLower_idem (c : Char) : c.toLower.toLower = c.toLower := by
  by_cases hc : c.toNat ≥ 65 ∧ c.toNat ≤ 90
  · have h1 : c.toLower = Char.ofNat (c.toNat + 32) := by
      rw [Char.toLower, if_pos hc]
    rw [h1]
    have h2 : (Char.ofNat (c.toNat + 32)).toNat = c.toNat + 32 :=
      toNat_ofNat_small _ (by omega) (by omega)
    rw [Char.toLower, h2, if_neg (by omega)]
  · have h1 : c.toLower = c := by
      rw [Char.toLower, if_neg hc]
    rw [h1, h1]

theorem pyLower_idem (s : String) : pyLower (pyLower s) = pyLower s := by
  unfold pyLower
  simp only [List.map_map]
  congr 1
  apply List.map_congr_left
  intro c _
  exact char_toLower_idem c

theorem pyLower_ne_Python (s : String) : pyLower s ≠ "Python" := by
  intro h
  unfold pyLower at h
  have hd : s.data.map Char.toLower = "Python".data := congrArg String.data h
  rw [show ("Python".data) = ['P', 'y', 't', 'h', 'o', 'n'] from rfl] at hd
  cases sd : s.data with
  | nil =>
    rw [sd] at hd
    exact List.noConfusion hd
  | cons c t =>
    rw [sd] at hd
    simp only [List.map_cons] at hd
    have h1 : Char.toLower c = 'P' := (List.cons.injEq .. ▸ hd).1
    exact char_toLower_ne_P c h1

/-- Claim C1: FAILS on the code (code bug).  `RuleConfig.__init__` runs
`self.config = DEFAULT_CONFIG.copy()` — a SHALLOW copy — so
`load_config` on one instance recurses into, and mutates, the nested
dicts shared with the module-level `DEFAULT_CONFIG`.  Concretely: the
default severity of `python_unused_import` reads `"low"` at import time,
but after instance A loads an override raising it to `"high"`, the
module-level default table itself and the configs of instances
constructed before (C) and after (B) the load all read `"high"`. -/
theorem c1_shallow_copy_contaminates :
    hReadPath heap0 defaultAddr severityPath = some (HVal.scal (Val.vStr "low")) ∧
    hReadPath heap4 defaultAddr severityPath = some (HVal.scal (Val.vStr "high")) ∧
    hReadPath heap4 addrC severityPath = some (HVal.scal (Val.vStr "high")) ∧
    hReadPath heap4 addrB severityPath = some (HVal.scal (Val.vStr "high")) :=
  ⟨rfl, rfl, rfl, rfl⟩

/-- Claim C2, counterexample: the claim fails as stated.  The override
`ovNoEnabled` (a rule entry carrying only `severity`) produces a
reachable effective configuration on which `is_rule_enabled` and
`get_enabled_rules` raise `KeyError` (`settings["enabled"]`), instead of
fail-open defaults. -/
theorem c2_counterexample :
    is_rule_enabled cfgNoEnabled "myrule" "python" = Except.error PyErr.keyError ∧
    get_enabled_rules cfgNoEnabled "python" = Except.error PyErr.keyError :=
  ⟨rfl, rfl⟩

/-- Claim C2 (amended): every Policy Evaluator query is total and never
raises on every effective configuration that keeps the schema shape of
the defaults (`wfConfig`: `rules` a mapping of mappings of rule entries
each holding `enabled` and `severity`, every `categories` entry holding
`enabled`, `rating_weights` a mapping); lookup misses are handled via
the fail-open default return values. -/
theorem c2_amended_queries_total (c : Entries) (h : wfConfig c = true)
    (rule lang cat sev d : String) :
    (∃ v, is_rule_enabled c rule lang = Except.ok v) ∧
    (∃ v, get_rule_severity c rule lang d = Except.ok v) ∧
    (∃ v, is_category_enabled c cat = Except.ok v) ∧
    (∃ v, get_rating_weight c sev = Except.ok v) ∧
    (∃ out, get_enabled_rules c lang = Except.ok out) ∧
    (∀ langs, getKey c "rules" = some (Val.vDict langs) →
      getKey langs (pyLower lang) = none →
      is_rule_enabled c rule lang = Except.ok (Val.vBool true) ∧
      get_rule_severity c rule lang d = Except.ok (Val.vStr d) ∧
      get_enabled_rules c lang = Except.ok []) ∧
    (∀ cats, getKey c "categories" = some (Val.vDict cats) →
      getKey cats cat = none →
      is_category_enabled c cat = Except.ok (Val.vBool true)) ∧
    (∀ rwt, getKey c "rating_weights" = some (Val.vDict rwt) →
      getKey rwt (pyLower sev) = none →
      get_rating_weight c sev = Except.ok (Val.vNum (1/5))) := by
  obtain ⟨⟨langs, hr, hwr⟩, ⟨cats, hc, hwc⟩, ⟨rw2, hrw⟩⟩ := wfConfig_elim h
  refine ⟨is_rule_enabled_ok c langs hr hwr rule lang,
    get_rule_severity_ok c langs hr hwr rule lang d,
    is_category_enabled_ok c cats hc hwc cat,
    get_rating_weight_ok c rw2 hrw sev,
    get_enabled_rules_ok c langs hr hwr lang, ?_, ?_, ?_⟩
  · intro langs2 hr2 hm
    refine ⟨?_, ?_, ?_⟩
    · unfold is_rule_enabled
      simp only [pySubscr, pyContains, hr2]
      rw [hm]
      rfl
    · unfold get_rule_severity
      simp only [pySubscr, pyContains, hr2]
      rw [hm]
      rfl
    · unfold get_enabled_rules
      simp only [pySubscr, pyContains, hr2]
      rw [hm]
      rfl
  · intro cats2 hc2 hm
    unfold is_category_enabled
    simp only [pySubscr, pyContains, hc2]
    rw [hm]
    rfl
  · intro rwt hrw2 hm
    unfold get_rating_weight
    simp only [pySubscr, hrw2]
    rw [hm]
    rfl

theorem c2_amended_queries_total_witness :
    wfConfig defaultConfig = true ∧
    (∃ v, is_rule_enabled defaultConfig "myrule" "unknownlang" = Except.ok v) ∧
    (∃ v, get_rule_severity defaultConfig "myrule" "unknownlang" "low" = Except.ok v) ∧
    (∃ v, is_category_enabled defaultConfig "mystery" = Except.ok v) ∧
    (∃ v, get_rating_weight defaultConfig "HIGH" = Except.ok v) ∧
    (∃ out, get_enabled_rules defaultConfig "unknownlang" = Except.ok out) ∧
    is_rule_enabled defaultConfig "myrule" "unknownlang" = Except.ok (Val.vBool true) ∧
    get_rule_severity defaultConfig "myrule" "unknownlang" "low" =
      Except.ok (Val.vStr "low") ∧
    get_enabled_rules defaultConfig "unknownlang" = Except.ok [] ∧
    is_category_enabled defaultConfig "mystery" = Except.ok (Val.vBool true) := by
  have h := c2_amended_queries_total defaultConfig (by decide)
    "myrule" "unknownlang" "mystery" "HIGH" "low"
  have hm := h.2.2.2.2.2.1 defaultRules rfl rfl
  have hcm := h.2.2.2.2.2.2.1 defaultCategories rfl rfl
  exact ⟨by decide, h.1, h.2.1, h.2.2.1, h.2.2.2.1, h.2.2.2.2.1,
    hm.1, hm.2.1, hm.2.2, hcm⟩

/-- Claim C3: when the override file fails to parse, `load_config`
catches the exception (the load is total and returns normally, emitting
a diagnostic) and leaves the configuration exactly the built-in
defaults, so every subsequent query answers exactly as on a `RuleConfig`
constructed with no override. -/
theorem c3_parse_failure_falls_back (msg rule lang cat sev d : String) :
    (load_config defaultConfig (ParseResult.err msg)).1 = defaultConfig ∧
    is_rule_enabled (load_config defaultConfig (ParseResult.err msg)).1 rule lang =
      is_rule_enabled defaultConfig rule lang ∧
    get_rule_severity (load_config defaultConfig (ParseResult.err msg)).1 rule lang d =
      get_rule_severity defaultConfig rule lang d ∧
    is_category_enabled (load_config defaultConfig (ParseResult.err msg)).1 cat =
      is_category_enabled defaultConfig cat ∧
    get_rating_weight (load_config defaultConfig (ParseResult.err msg)).1 sev =
      get_rating_weight defaultConfig sev ∧
    get_enabled_rules (load_config defaultConfig (ParseResult.err msg)).1 lang =
      get_enabled_rules defaultConfig lang :=
  ⟨rfl, rfl, rfl, rfl, rfl, rfl⟩

theorem merge_getKey_rec : ∀ (ov b : Entries) (k : String) (bd ud : Entries),
    (ov.map Prod.fst).Nodup →
    getKey ov k = some (Val.vDict ud) →
    getKey b k = some (Val.vDict bd) →
    getKey (mergeConfigs b ov) k = some (Val.vDict (mergeConfigs bd ud)) := by
  intro ov
  induction ov with
  | nil =>
    intro b k bd ud _ h _
    exact Option.noConfusion h
  | cons p r ih =>
    intro b k bd ud hnd hov hb
    obtain ⟨k1, v1⟩ := p
    simp only [List.map_cons, List.nodup_cons] at hnd
    by_cases h1 : k1 = k
    · subst h1
      have hv1 : v1 = Val.vDict ud := by simpa [getKey] using hov
      subst hv1
      rw [mergeConfigs_cons, stepVal_rec ud hb]
      rw [merge_getKey_absent r _ k1
        (fun q hq he => hnd.1 (he ▸ List.mem_map.mpr ⟨q, hq, rfl⟩))]
      exact getKey_setKey_self b k1 _
    · have hov2 : getKey r k = some (Val.vDict ud) := by simpa [getKey, h1] using hov
      rw [mergeConfigs_cons]
      apply ih _ k bd ud hnd.2 hov2
      rw [getKey_setKey_ne b k1 _ k (fun (he : k = k1) => h1 he.symm)]
      exact hb

theorem merge_getKey_repl : ∀ (ov b : Entries) (k : String) (v : Val),
    (ov.map Prod.fst).Nodup →
    getKey ov k = some v →
    ((∀ bd, getKey b k ≠ some (Val.vDict bd)) ∨ (∀ ud, v ≠ Val.vDict ud)) →
    getKey (mergeConfigs b ov) k = some v := by
  intro ov
  induction ov with
  | nil =>
    intro b k v _ h _
    exact Option.noConfusion h
  | cons p r ih =>
    intro b k v hnd hov hcond
    obtain ⟨k1, v1⟩ := p
    simp only [List.map_cons, List.nodup_cons] at hnd
    by_cases h1 : k1 = k
    · subst h1
      have hv1 : v1 = v := by simpa [getKey] using hov
      subst hv1
      have hstep : stepVal b k1 v1 = v1 := by
        rcases hcond with hcl | hcr
        · exact stepVal_of_base _ hcl
        · exact stepVal_of_val _ hcr
      rw [mergeConfigs_cons, hstep]
      rw [merge_getKey_absent r _ k1
        (fun q hq he => hnd.1 (he ▸ List.mem_map.mpr ⟨q, hq, rfl⟩))]
      exact getKey_setKey_self b k1 v1
    · have hov2 : getKey r k = some v := by simpa [getKey, h1] using hov
      rw [mergeConfigs_cons]
      apply ih _ k v hnd.2 hov2
      rcases hcond with hcl | hcr
      · left
        intro bd hh
        rw [getKey_setKey_ne b k1 _ k (fun (he : k = k1) => h1 he.symm)] at hh
        exact hcl bd hh
      · right
        exact hcr

/-- Claim C4: override-wins merge.  Concretely, merging `ovSevHigh` onto
the defaults makes `get_rule_severity("python_unused_import", "python",
d)` return `"high"` for every default `d` while `is_rule_enabled` stays
`true`; in general, for every key of the override (a mapping, hence with
unique keys): if both sides hold mappings the merge recurses, otherwise
the override value replaces the base value entirely, and keys absent
from the override are untouched. -/
theorem c4_merge_override_wins :
    (∀ d : String, get_rule_severity (mergeConfigs defaultConfig ovSevHigh)
        "python_unused_import" "python" d = Except.ok (Val.vStr "high")) ∧
    is_rule_enabled (mergeConfigs defaultConfig ovSevHigh)
        "python_unused_import" "python" = Except.ok (Val.vBool true) ∧
    (∀ (b ov : Entries) (k : String), k ∉ ov.map Prod.fst →
        getKey (mergeConfigs b ov) k = getKey b k) ∧
    (∀ (b ov : Entries) (k : String) (bd ud : Entries),
        (ov.map Prod.fst).Nodup →
        getKey ov k = some (Val.vDict ud) →
        getKey b k = some (Val.vDict bd) →
        getKey (mergeConfigs b ov) k = some (Val.vDict (mergeConfigs bd ud))) ∧
    (∀ (b ov : Entries) (k : String) (v : Val),
        (ov.map Prod.fst).Nodup →
        getKey ov k = some v →
        ((∀ bd, getKey b k ≠ some (Val.vDict bd)) ∨ (∀ ud, v ≠ Val.vDict ud)) →
        getKey (mergeConfigs b ov) k = some v) := by
  refine ⟨fun d => rfl, rfl, ?_, ?_, ?_⟩
  · intro b ov k h
    exact merge_getKey_absent ov b k
      (fun p hp he => h (he ▸ List.mem_map.mpr ⟨p, hp, rfl⟩))
  · intro b ov k bd ud hnd h1 h2
    exact merge_getKey_rec ov b k bd ud hnd h1 h2
  · intro b ov k v hnd h1 h2
    exact merge_getKey_repl ov b k v hnd h1 h2

theorem c4_merge_override_wins_witness :
    getKey (mergeConfigs defaultConfig ovSevHigh) "categories" =
      getKey defaultConfig "categories" ∧
    getKey (mergeConfigs defaultConfig ovSevHigh) "rules" =
      some (Val.vDict (mergeConfigs defaultRules
        [("python", Val.vDict
           [("python_unused_import", Val.vDict [("severity", Val.vStr "high")])])])) ∧
    getKey (mergeConfigs defaultConfig ovRulesStr) "rules" = some (Val.vStr "x") :=
  ⟨c4_merge_override_wins.2.2.1 defaultConfig ovSevHigh "categories" (by decide),
   c4_merge_override_wins.2.2.2.1 defaultConfig ovSevHigh "rules" defaultRules
     [("python", Val.vDict
        [("python_unused_import", Val.vDict [("severity", Val.vStr "high")])])]
     (by decide) rfl rfl,
   c4_merge_override_wins.2.2.2.2 defaultConfig ovRulesStr "rules" (Val.vStr "x")
     (by decide) rfl (Or.inr (fun ud h => Val.noConfusion h))⟩

/-- Claim C5: fail-open for unknown entities: for a `(rule, language)`
pair not present in the effective configuration's rules table,
`is_rule_enabled` returns `True`, `get_rule_severity` returns the
caller's `default_severity` verbatim (no validation), and
`get_enabled_rules` never lists the unknown rule; for a language whose
lowercased form is not a key of the table, `get_enabled_rules` returns
the empty list rather than an error. -/
theorem c5_fail_open_unknown (c langs : Entries) (rule lang d : String)
    (hr : getKey c "rules" = some (Val.vDict langs))
    (hmiss : getKey langs (pyLower lang) = none ∨
      ∃ b, getKey langs (pyLower lang) = some (Val.vDict b) ∧ getKey b rule = none) :
    is_rule_enabled c rule lang = Except.ok (Val.vBool true) ∧
    get_rule_severity c rule lang d = Except.ok (Val.vStr d) ∧
    (∀ names, get_enabled_rules c lang = Except.ok names → rule ∉ names) ∧
    (getKey langs (pyLower lang) = none → get_enabled_rules c lang = Except.ok []) := by
  refine ⟨?_, ?_, ?_, ?_⟩
  · unfold is_rule_enabled
    simp only [pySubscr, pyContains, hr]
    rcases hmiss with hm | ⟨b, hm, hbr⟩
    · rw [hm]
      rfl
    · rw [hm]
      simp only [pyContains]
      rw [hbr]
      rfl
  · unfold get_rule_severity
    simp only [pySubscr, pyContains, hr]
    rcases hmiss with hm | ⟨b, hm, hbr⟩
    · rw [hm]
      rfl
    · rw [hm]
      simp only [pyContains]
      rw [hbr]
      rfl
  · intro names hge hmem
    unfold get_enabled_rules at hge
    simp only [pySubscr, pyContains, hr] at hge
    rcases hmiss with hm | ⟨b, hm, hbr⟩
    · rw [hm] at hge
      have hn : ([] : List String) = names := by injection hge
      rw [← hn] at hmem
      simp at hmem
    · rw [hm] at hge
      have hsub := enabledNames_mem b [] names hge rule hmem
      rcases hsub with h1 | h1
      · simp at h1
      · rw [getKey_none_iff] at hbr
        exact hbr h1
  · intro hm
    unfold get_enabled_rules
    simp only [pySubscr, pyContains, hr]
    rw [hm]
    rfl

theorem c5_fail_open_unknown_witness :
    is_rule_enabled defaultConfig "no_such_rule" "python" = Except.ok (Val.vBool true) ∧
    get_rule_severity defaultConfig "no_such_rule" "python" "weird" =
      Except.ok (Val.vStr "weird") ∧
    get_enabled_rules defaultConfig "unknownlang" = Except.ok [] := by
  have h1 := c5_fail_open_unknown defaultConfig defaultRules "no_such_rule" "python" "weird"
    rfl (Or.inr ⟨_, rfl, rfl⟩)
  have h2 := c5_fail_open_unknown defaultConfig defaultRules "x" "unknownlang" "d"
    rfl (Or.inl rfl)
  exact ⟨h1.1, h1.2.1, h2.2.2.2 rfl⟩

/-- Claim C6: `get_rating_weight` looks the severity up lowercased; when
the lowercased severity is not a key of the effective weight map it
returns the literal `0.2` (`1/5`) — in particular for every string not
in the four default levels under the default configuration, and also
when an override has changed the configured weight of `low` — and it
never raises (the weight table being a mapping). -/
theorem c6_rating_weight_fallback :
    (∀ (c rw : Entries) (sev : String),
        getKey c "rating_weights" = some (Val.vDict rw) →
        getKey rw (pyLower sev) = none →
        get_rating_weight c sev = Except.ok (Val.vNum (1/5))) ∧
    (∀ sev : String,
        pyLower sev ∉ (["critical", "high", "medium", "low"] : List String) →
        get_rating_weight defaultConfig sev = Except.ok (Val.vNum (1/5))) ∧
    (∀ (c : Entries) (sev : String),
        get_rating_weight c (pyLower sev) = get_rating_weight c sev) ∧
    get_rating_weight (mergeConfigs defaultConfig ovLowWeight) "bogus" =
      Except.ok (Val.vNum (1/5)) := by
  have h1 : ∀ (c rw : Entries) (sev : String),
      getKey c "rating_weights" = some (Val.vDict rw) →
      getKey rw (pyLower sev) = none →
      get_rating_weight c sev = Except.ok (Val.vNum (1/5)) := by
    intro c rw sev hr hn
    unfold get_rating_weight
    simp only [pySubscr, hr]
    rw [hn]
    rfl
  refine ⟨h1, ?_, ?_, rfl⟩
  · intro sev hs
    have hn : getKey defaultRatingWeights (pyLower sev) = none := by
      rw [getKey_none_iff]
      intro hmem
      apply hs
      simpa [defaultRatingWeights] using hmem
    exact h1 defaultConfig defaultRatingWeights sev rfl hn
  · intro c sev
    unfold get_rating_weight
    rw [pyLower_idem]

theorem c6_rating_weight_fallback_witness :
    get_rating_weight defaultConfig "unknownSeverity" = Except.ok (Val.vNum (1/5)) ∧
    get_rating_weight defaultConfig "Bogus" = Except.ok (Val.vNum (1/5)) :=
  ⟨c6_rating_weight_fallback.1 defaultConfig defaultRatingWeights "unknownSeverity" rfl rfl,
   c6_rating_weight_fallback.2.1 "Bogus" (by decide)⟩

/-- Claim C7: merge idempotence: applying the same override document (a
Python/YAML mapping, hence with duplicate-free keys at every level) a
second time to the already-merged result changes nothing. -/
theorem c7_merge_idempotent (base ov : Entries)
    (h : nodupVal (Val.vDict ov) = true) :
    mergeConfigs (mergeConfigs base ov) ov = mergeConfigs base ov :=
  merge_idem_general (entriesSize ov) ov (le_refl _) h base

theorem c7_merge_idempotent_witness :
    nodupVal (Val.vDict ovSevHigh) = true ∧
    mergeConfigs (mergeConfigs defaultConfig ovSevHigh) ovSevHigh =
      mergeConfigs defaultConfig ovSevHigh :=
  ⟨by decide, c7_merge_idempotent defaultConfig ovSevHigh (by decide)⟩

theorem mem_insertE : ∀ (t : Entries) (p q : String × Val),
    q ∈ insertE p t → q = p ∨ q ∈ t := by
  intro t
  induction t with
  | nil =>
    intro p q h
    simp [insertE] at h
    exact Or.inl h
  | cons a s ih =>
    intro p q h
    simp only [insertE] at h
    by_cases hlt : strLt p.1 a.1 = true
    · rw [if_pos hlt] at h
      rcases List.mem_cons.mp h with h1 | h1
      · exact Or.inl h1
      · exact Or.inr h1
    · rw [if_neg hlt] at h
      rcases List.mem_cons.mp h with h1 | h1
      · refine Or.inr ?_
        rw [h1]
        exact List.mem_cons_self _ _
      · rcases ih p q h1 with h2 | h2
        · exact Or.inl h2
        · exact Or.inr (List.mem_cons_of_mem _ h2)

theorem sortE_keys_mem : ∀ (d : Entries) (q : String × Val),
    q ∈ sortE d → q.1 ∈ d.map Prod.fst := by
  intro d
  induction d with
  | nil =>
    intro q h
    simp [sortE] at h
  | cons a r ih =>
    intro q h
    obtain ⟨k, v⟩ := a
    rcases mem_insertE (sortE r) (k, sortV v) q h with h1 | h1
    · rw [h1]
      simp
    · simp only [List.map_cons]
      exact List.mem_cons_of_mem _ (ih q h1)

theorem setKey_comm_present : ∀ (d : Entries) (kp kq : String) (vp vq w : Val),
    getKey d kp = some w → kp ≠ kq →
    setKey (setKey d kq vq) kp vp = setKey (setKey d kp vp) kq vq := by
  intro d
  induction d with
  | nil =>
    intro kp kq vp vq w h _
    exact Option.noConfusion h
  | cons a r ih =>
    intro kp kq vp vq w h hne
    obtain ⟨k1, v1⟩ := a
    by_cases h1 : k1 = kp
    · subst h1
      have h2 : ¬ (k1 = kq) := hne
      simp [setKey, h2]
    · by_cases h2 : k1 = kq
      · subst h2
        simp [setKey, h1]
      · have hr : getKey r kp = some w := by
          simpa [getKey, h1] using h
        simp [setKey, h1, h2, ih kp kq vp vq w hr hne]

/-- Inserting a base-present key at its sorted place instead of the
front does not change the merge (the key only updates its existing
position, so its processing order is irrelevant). -/
theorem merge_insertE_present : ∀ (u base : Entries) (kp : String) (vp w : Val),
    getKey base kp = some w →
    (∀ q ∈ u, (q : String × Val).1 ≠ kp) →
    mergeConfigs base (insertE (kp, vp) u) = mergeConfigs base ((kp, vp) :: u) := by
  intro u
  induction u with
  | nil =>
    intro base kp vp w _ _
    rfl
  | cons a t ih =>
    intro base kp vp w hw hne
    obtain ⟨kq, vq⟩ := a
    have hkq : kq ≠ kp := hne (kq, vq) (List.mem_cons_self _ _)
    simp only [insertE]
    by_cases hlt : strLt kp kq = true
    · rw [if_pos hlt]
    · rw [if_neg hlt]
      rw [mergeConfigs_cons base kq vq (insertE (kp, vp) t)]
      have hw2 : getKey (setKey base kq (stepVal base kq vq)) kp = some w := by
        rw [getKey_setKey_ne base kq _ kp (fun (he : kp = kq) => hkq he.symm)]
        exact hw
      rw [ih _ kp vp w hw2 (fun q hq => hne q (List.mem_cons_of_mem _ hq))]
      rw [mergeConfigs_cons _ kp vp t]
      rw [mergeConfigs_cons base kp vp ((kq, vq) :: t)]
      rw [mergeConfigs_cons _ kq vq t]
      congr 1
      rw [stepVal_congr vp
        (getKey_setKey_ne base kq (stepVal base kq vq) kp
          (fun (he : kp = kq) => hkq he.symm))]
      rw [stepVal_congr vq
        (getKey_setKey_ne base kp (stepVal base kp vp) kq
          (fun (he : kq = kp) => hkq he))]
      exact setKey_comm_present base kp kq (stepVal base kp vp) (stepVal base kq vq) w
        hw (fun he => hkq he.symm)

/-- A key-sorted entry list with `sortV`-invariant values is a fixed
point of `sortE`. -/
theorem sortE_fixed : ∀ (d : Entries),
    sortedKeysB (d.map Prod.fst) = true →
    (∀ p ∈ d, sortV (p : String × Val).2 = p.2) →
    sortE d = d := by
  intro d
  induction d with
  | nil =>
    intro _ _
    rfl
  | cons a r ih =>
    intro hs hf
    obtain ⟨k, v⟩ := a
    have hfk : sortV v = v := hf (k, v) (List.mem_cons_self _ _)
    cases r with
    | nil =>
      show insertE (k, sortV v) (sortE []) = [(k, v)]
      rw [hfk]
      rfl
    | cons b t =>
      obtain ⟨k2, v2⟩ := b
      have hs2 : sortedKeysB (((k2, v2) :: t).map Prod.fst) = true := by
        simp only [List.map_cons, sortedKeysB] at hs ⊢
        rw [Bool.and_eq_true] at hs
        exact hs.2
      have hlt : strLt k k2 = true := by
        simp only [List.map_cons, sortedKeysB] at hs
        rw [Bool.and_eq_true] at hs
        exact hs.1
      have hr := ih hs2 (fun q hq => hf q (List.mem_cons_of_mem _ hq))
      show insertE (k, sortV v) (sortE ((k2, v2) :: t)) = (k, v) :: (k2, v2) :: t
      rw [hfk, hr]
      simp only [insertE]
      rw [if_pos hlt]

theorem insertE_ne_nil : ∀ (p : String × Val) (t : Entries), insertE p t ≠ [] := by
  intro p t
  cases t with
  | nil => exact fun h => List.noConfusion h
  | cons a s =>
    simp only [insertE]
    split
    · exact fun h => List.noConfusion h
    · exact fun h => List.noConfusion h

/-- Merging the key-sorted document of a `PreS`-shaped configuration
onto its base reproduces the configuration exactly. -/
theorem merge_sorted_of_preS : ∀ (base cfg : Entries), PreS base cfg →
    (base.map Prod.fst).Nodup → (cfg.map Prod.fst).Nodup →
    mergeConfigs base (sortE cfg) = cfg := by
  intro base cfg hpre
  induction hpre with
  | nil cfg hsk hsv =>
    intro _ hnd
    rw [sortE_fixed cfg hsk hsv]
    rw [merge_absent_append cfg [] hnd (fun p _ => rfl)]
    rfl
  | consDict k bd cd br cr hbd hcd hsub hrest ihsub ihrest =>
    intro hb hc
    simp only [List.map_cons, List.nodup_cons] at hb hc
    have hgk : getKey ((k, Val.vDict bd) :: br) k = some (Val.vDict bd) := by
      simp [getKey]
    have hcrne : ∀ q ∈ sortE cr, (q : String × Val).1 ≠ k := by
      intro q hq he
      exact hc.1 (he ▸ sortE_keys_mem cr q hq)
    show mergeConfigs ((k, Val.vDict bd) :: br)
        (insertE (k, sortV (Val.vDict cd)) (sortE cr)) = (k, Val.vDict cd) :: cr
    rw [merge_insertE_present (sortE cr) _ k (sortV (Val.vDict cd)) (Val.vDict bd)
      hgk hcrne]
    rw [mergeConfigs_cons]
    have hstep : stepVal ((k, Val.vDict bd) :: br) k (sortV (Val.vDict cd)) =
        Val.vDict cd := by
      show stepVal ((k, Val.vDict bd) :: br) k (Val.vDict (sortE cd)) = Val.vDict cd
      rw [stepVal_rec (sortE cd) hgk]
      rw [ihsub hbd hcd]
    rw [hstep]
    have hset : setKey ((k, Val.vDict bd) :: br) k (Val.vDict cd) =
        (k, Val.vDict cd) :: br := by
      simp [setKey]
    rw [hset]
    rw [merge_head_untouched (sortE cr) k (Val.vDict cd) br hcrne]
    rw [ihrest hb.2 hc.2]
  | consRepl k v w br cr hnd2 hfix hrest ihrest =>
    intro hb hc
    simp only [List.map_cons, List.nodup_cons] at hb hc
    have hgk : getKey ((k, v) :: br) k = some v := by
      simp [getKey]
    have hcrne : ∀ q ∈ sortE cr, (q : String × Val).1 ≠ k := by
      intro q hq he
      exact hc.1 (he ▸ sortE_keys_mem cr q hq)
    show mergeConfigs ((k, v) :: br) (insertE (k, sortV w) (sortE cr)) = (k, w) :: cr
    rw [hfix]
    rw [merge_insertE_present (sortE cr) _ k w v hgk hcrne]
    rw [mergeConfigs_cons]
    have hstep : stepVal ((k, v) :: br) k w = w := by
      by_cases hv : ∃ bd, v = Val.vDict bd
      · obtain ⟨bd, rfl⟩ := hv
        exact stepVal_of_val w (hnd2 bd rfl)
      · apply stepVal_of_base
        intro bd hh
        rw [hgk] at hh
        exact hv ⟨bd, Option.some.inj hh⟩
    rw [hstep]
    have hset : setKey ((k, v) :: br) k w = (k, w) :: br := by
      simp [setKey]
    rw [hset]
    rw [merge_head_untouched (sortE cr) k w br hcrne]
    rw [ihrest hb.2 hc.2]

/-- `PreS` is reflexive on dicts whose values are `sortV`-invariant
non-dicts (the leaf dicts of the default configuration). -/
theorem preS_refl_scalar : ∀ d : Entries,
    (∀ p ∈ d, isDictV (p : String × Val).2 = false ∧ sortV p.2 = p.2) →
    PreS d d := by
  intro d
  induction d with
  | nil =>
    intro _
    exact PreS.nil [] rfl (fun p hp => absurd hp (List.not_mem_nil p))
  | cons a r ih =>
    intro h
    obtain ⟨k, v⟩ := a
    have ha := h (k, v) (List.mem_cons_self _ _)
    refine PreS.consRepl k v v r r ?_ ha.2
      (ih (fun q hq => h q (List.mem_cons_of_mem _ hq)))
    intro bd hv cd hw
    rw [hv] at ha
    exact absurd ha.1 (by simp [isDictV])

theorem preS_leaf (b : Bool) (s : String) :
    PreS [("enabled", Val.vBool b), ("severity", Val.vStr s)]
      [("enabled", Val.vBool b), ("severity", Val.vStr s)] := by
  apply preS_refl_scalar
  intro p hp
  rcases List.mem_cons.mp hp with h1 | h1
  · rw [h1]
    exact ⟨rfl, rfl⟩
  · rcases List.mem_cons.mp h1 with h2 | h2
    · rw [h2]
      exact ⟨rfl, rfl⟩
    · exact absurd h2 (List.not_mem_nil p)

theorem preS_cat_leaf :
    PreS [("enabled", Val.vBool true)] [("enabled", Val.vBool true)] := by
  apply preS_refl_scalar
  intro p hp
  rcases List.mem_cons.mp hp with h1 | h1
  · rw [h1]
    exact ⟨rfl, rfl⟩
  · exact absurd h1 (List.not_mem_nil p)

theorem preS_weights : PreS defaultRatingWeights defaultRatingWeights := by
  apply preS_refl_scalar
  intro p hp
  unfold defaultRatingWeights at hp
  rcases List.mem_cons.mp hp with h1 | h1
  · rw [h1]
    exact ⟨rfl, rfl⟩
  · rcases List.mem_cons.mp h1 with h2 | h2
    · rw [h2]
      exact ⟨rfl, rfl⟩
    · rcases List.mem_cons.mp h2 with h3 | h3
      · rw [h3]
        exact ⟨rfl, rfl⟩
      · rcases List.mem_cons.mp h3 with h4 | h4
        · rw [h4]
          exact ⟨rfl, rfl⟩
        · exact absurd h4 (List.not_mem_nil p)

theorem preS_default : PreS defaultConfig defaultConfig := by
  have hnil : PreS [] ([] : Entries) :=
    PreS.nil [] rfl (fun p hp => absurd hp (List.not_mem_nil p))
  unfold defaultConfig defaultRules defaultCategories
  refine PreS.consDict "rules" _ _ _ _ (by decide) (by decide) ?_ ?_
  · refine PreS.consDict "python" _ _ _ _ (by decide) (by decide) ?_ ?_
    · refine PreS.consDict "python_naming_convention" _ _ _ _ (by decide) (by decide)
        (preS_leaf true "medium") ?_
      refine PreS.consDict "python_unused_import" _ _ _ _ (by decide) (by decide)
        (preS_leaf true "low") ?_
      refine PreS.consDict "python_except_pass" _ _ _ _ (by decide) (by decide)
        (preS_leaf true "high") ?_
      refine PreS.consDict "python_sql_injection" _ _ _ _ (by decide) (by decide)
        (preS_leaf true "critical") ?_
      refine PreS.consDict "python_nested_loop" _ _ _ _ (by decide) (by decide)
        (preS_leaf true "medium") ?_
      exact hnil
    · refine PreS.consDict "javascript" _ _ _ _ (by decide) (by decide) ?_ hnil
      refine PreS.consDict "javascript_var_usage" _ _ _ _ (by decide) (by decide)
        (preS_leaf true "medium") ?_
      refine PreS.consDict "javascript_equality" _ _ _ _ (by decide) (by decide)
        (preS_leaf true "high") ?_
      refine PreS.consDict "javascript_eval" _ _ _ _ (by decide) (by decide)
        (preS_leaf true "critical") ?_
      refine PreS.consDict "javascript_array_foreach" _ _ _ _ (by decide) (by decide)
        (preS_leaf true "low") ?_
      exact hnil
  · refine PreS.consDict "categories" _ _ _ _ (by decide) (by decide) ?_ ?_
    · refine PreS.consDict "quality" _ _ _ _ (by decide) (by decide) preS_cat_leaf ?_
      refine PreS.consDict "bug" _ _ _ _ (by decide) (by decide) preS_cat_leaf ?_
      refine PreS.consDict "security" _ _ _ _ (by decide) (by decide) preS_cat_leaf ?_
      refine PreS.consDict "performance" _ _ _ _ (by decide) (by decide) preS_cat_leaf ?_
      refine PreS.consDict "style" _ _ _ _ (by decide) (by decide) preS_cat_leaf ?_
      refine PreS.consDict "maintainability" _ _ _ _ (by decide) (by decide)
        preS_cat_leaf ?_
      exact hnil
    · refine PreS.consRepl "severity_levels" _ _ _ _ ?_ rfl ?_
      · intro bd hv
        exact Val.noConfusion hv
      · refine PreS.consDict "rating_weights" _ _ _ _ (by decide) (by decide)
          preS_weights ?_
        exact hnil

/-- Claim C8, counterexample: the round-trip claim fails as stated, in
two independent ways.  (1) `cfgLossy` (reachable by two loads) lost the
default `python` rules; re-loading its saved document over a fresh
default merges it onto the defaults and resurrects
`python_unused_import`, so `get_rule_severity` answers the caller
default `"zzz"` before the round-trip but `"low"` after.  (2) `cfgOrder`
appends `zz_rule` then `aa_rule` to the `python` bucket; `yaml.dump`
(default `sort_keys=True`) writes the keys alphabetically, so the reload
appends them in the opposite order and `get_enabled_rules` reports a
different sequence. -/
theorem c8_counterexample :
    get_rule_severity cfgLossy "python_unused_import" "python" "zzz" =
      Except.ok (Val.vStr "zzz") ∧
    get_rule_severity
      ((load_config defaultConfig (ParseResult.ok (save_config cfgLossy))).1)
      "python_unused_import" "python" "zzz" =
      Except.ok (Val.vStr "low") ∧
    get_enabled_rules cfgOrder "python" =
      Except.ok ["python_naming_convention", "python_unused_import",
        "python_except_pass", "python_sql_injection", "python_nested_loop",
        "zz_rule", "aa_rule"] ∧
    get_enabled_rules
      ((load_config defaultConfig (ParseResult.ok (save_config cfgOrder))).1)
      "python" =
      Except.ok ["python_naming_convention", "python_unused_import",
        "python_except_pass", "python_sql_injection", "python_nested_loop",
        "aa_rule", "zz_rule"] :=
  ⟨rfl, rfl, rfl, rfl⟩

/-- Claim C8 (amended): the save/load round-trip reproduces the
configuration exactly — hence observationally, for every query — for
every effective configuration `cfg` with duplicate-free keys that
(i) never dropped a default key (it lists the default keys first, in
order, recursing wherever both sides hold mappings), and (ii) already
stores its verbatim-kept content the way `yaml.dump`'s key sorting
emits it: values at not-both-mappings positions are `sortV`-invariant,
and extra keys sit at the end in sorted order (`PreS defaultConfig
cfg`).  Outside this class the round-trip resurrects dropped defaults
or reorders rules, as the counterexample shows. -/
theorem c8_amended_round_trip (cfg : Entries)
    (hpre : PreS defaultConfig cfg)
    (hnd : (cfg.map Prod.fst).Nodup)
    (rule lang cat sev d : String) :
    (load_config defaultConfig (ParseResult.ok (save_config cfg))).1 = cfg ∧
    is_rule_enabled (load_config defaultConfig (ParseResult.ok (save_config cfg))).1
        rule lang = is_rule_enabled cfg rule lang ∧
    get_rule_severity (load_config defaultConfig (ParseResult.ok (save_config cfg))).1
        rule lang d = get_rule_severity cfg rule lang d ∧
    is_category_enabled (load_config defaultConfig (ParseResult.ok (save_config cfg))).1
        cat = is_category_enabled cfg cat ∧
    get_rating_weight (load_config defaultConfig (ParseResult.ok (save_config cfg))).1
        sev = get_rating_weight cfg sev ∧
    get_enabled_rules (load_config defaultConfig (ParseResult.ok (save_config cfg))).1
        lang = get_enabled_rules cfg lang := by
  have hne : cfg ≠ [] := by
    intro he
    rw [he] at hpre
    unfold defaultConfig at hpre
    cases hpre
  have hmain : (load_config defaultConfig (ParseResult.ok (save_config cfg))).1 = cfg := by
    show (load_config defaultConfig (ParseResult.ok (Val.vDict (sortE cfg)))).1 = cfg
    have hne2 : sortE cfg ≠ [] := by
      cases cfg with
      | nil => exact absurd rfl hne
      | cons a t =>
        obtain ⟨k, v⟩ := a
        show insertE (k, sortV v) (sortE t) ≠ []
        exact insertE_ne_nil _ _
    have ht : pyTruthy (Val.vDict (sortE cfg)) = true := by
      cases hse : sortE cfg with
      | nil => exact absurd hse hne2
      | cons a t => rfl
    simp only [load_config, ht, if_true]
    exact merge_sorted_of_preS defaultConfig cfg hpre (by decide) hnd
  rw [hmain]
  exact ⟨rfl, rfl, rfl, rfl, rfl, rfl⟩

theorem c8_amended_round_trip_witness :
    (load_config defaultConfig (ParseResult.ok (save_config defaultConfig))).1 =
      defaultConfig :=
  (c8_amended_round_trip defaultConfig preS_default (by decide) "r" "l" "c" "s" "d").1

/-- Claim C9: the merge does not case-normalize keys while every query
lowercases its language argument: loading `ovCased` stores a bucket
under `"Python"`, distinct from (and after) the built-in lowercase
buckets — and since `str.lower()` never produces an uppercase letter, no
language argument can ever select that bucket, so every rule query
answers exactly as on the untouched defaults: the override silently has
no effect on evaluation. -/
theorem c9_cased_bucket_inert :
    getKey cfgCased "rules" =
      some (Val.vDict (defaultRules ++ [("Python", Val.vDict casedBucket)])) ∧
    (∀ lang rule d : String,
      is_rule_enabled cfgCased rule lang = is_rule_enabled defaultConfig rule lang ∧
      get_rule_severity cfgCased rule lang d =
        get_rule_severity defaultConfig rule lang d ∧
      get_enabled_rules cfgCased lang = get_enabled_rules defaultConfig lang) := by
  refine ⟨rfl, ?_⟩
  intro lang rule d
  have hl : pyLower lang ≠ "Python" := pyLower_ne_Python lang
  have hk : getKey (defaultRules ++ [("Python", Val.vDict casedBucket)]) (pyLower lang) =
      getKey defaultRules (pyLower lang) :=
    getKey_append_ne defaultRules "Python" _ (pyLower lang) hl
  have e1 : pySubscr (Val.vDict cfgCased) "rules" =
      Except.ok (Val.vDict (defaultRules ++ [("Python", Val.vDict casedBucket)])) := rfl
  have e2 : pySubscr (Val.vDict defaultConfig) "rules" =
      Except.ok (Val.vDict defaultRules) := rfl
  refine ⟨?_, ?_, ?_⟩
  · unfold is_rule_enabled
    rw [e1, e2]
    simp only [pyContains, pySubscr]
    rw [hk]
  · unfold get_rule_severity
    rw [e1, e2]
    simp only [pyContains, pySubscr]
    rw [hk]
  · unfold get_enabled_rules
    rw [e1, e2]
    simp only [pyContains, pySubscr]
    rw [hk]

/-- Claim C10: if the override file parses to a value that is not a
mapping (a list, a scalar, `None` from an empty file, ...), `load_config`
silently ignores the document: no merge, no exception, no diagnostic,
and the configuration is exactly what it was before the call. -/
theorem c10_non_mapping_ignored (cfg : Entries) (v : Val) (h : isDictV v = false) :
    load_config cfg (ParseResult.ok v) = (cfg, []) := by
  cases v with
  | vDict d => simp [isDictV] at h
  | vStr s =>
    simp only [load_config]
    split <;> rfl
  | vBool b =>
    simp only [load_config]
    split <;> rfl
  | vNum q =>
    simp only [load_config]
    split <;> rfl
  | vNull =>
    simp only [load_config]
    split <;> rfl
  | vList xs =>
    simp only [load_config]
    split <;> rfl

theorem c10_non_mapping_ignored_witness :
    isDictV (Val.vList [Val.vNum 1]) = false ∧
    load_config defaultConfig (ParseResult.ok (Val.vList [Val.vNum 1])) =
      (defaultConfig, []) :=
  ⟨rfl, c10_non_mapping_ignored defaultConfig (Val.vList [Val.vNum 1]) rfl⟩
